import Mathlib

/-!
Verification development for a file-recovery tool (FAT32 / NTFS parsers and a
signature carver).  The Go sources are shallowly embedded: devices are lists of
byte values (`List Nat`, each entry `< 256` on real inputs), positional reads
return the corresponding sublist (a full read succeeds exactly when the
requested range lies inside the device, mirroring `os.File.ReadAt`, which
returns `io.EOF` together with a short count otherwise), and every loop is
expressed as structural recursion on an explicit fuel argument that matches the
loop's own bound, so that all definitions compute by kernel reduction.
-/

namespace Recovery


/-- Little-endian 16-bit read at `o`, `binary.LittleEndian.Uint16(b[o:o+2])`.
Out-of-range indices read as 0 (call sites in the Go code guarantee the range
is in bounds). -/
def u16 (b : List Nat) (o : Nat) : Nat :=
  b.getD o 0 + 256 * b.getD (o + 1) 0

/-- Little-endian 32-bit read at `o`, `binary.LittleEndian.Uint32(b[o:o+4])`. -/
def u32 (b : List Nat) (o : Nat) : Nat :=
  b.getD o 0 + 256 * b.getD (o + 1) 0 + 65536 * b.getD (o + 2) 0 +
    16777216 * b.getD (o + 3) 0

/-- Interpret a value `p < 2^64` as a two's-complement `int64`. -/
def toInt64 (p : Nat) : Int :=
  if p < 9223372036854775808 then (p : Int) else (p : Int) - 18446744073709551616

/-- Wrapping `int64` addition result: reduce an exact integer into
`[-2^63, 2^63)` the way Go's `int64` arithmetic does. -/
def wrap64 (z : Int) : Int :=
  (z + 9223372036854775808) % 18446744073709551616 - 9223372036854775808

/-- `z` is representable as an `int64`. -/
def InI64 (z : Int) : Prop :=
  -9223372036854775808 ≤ z ∧ z < 9223372036854775808

instance (z : Int) : Decidable (InI64 z) := by
  unfold InI64; infer_instance

/-! ## Carver (`internal/carver/carver.go`)

`FileSignature`, `CarvedFile`, `Scan` and `RecoverFile` are embedded.  The
scan's read loop is `scanLoop`; it is parameterised by a read oracle
`r : Nat → Nat` giving the byte count each positional read returns (the
list-backed full read is `fullRead`), and by fuel, returning `none` when fuel
runs out — the termination claim shows fuel `size + 1` always suffices. -/

/-- Mirror of `carver.FileSignature` (the `Offset` field is never read by
`Scan`/`RecoverFile` and is omitted). -/
structure FileSignature where
  name : String
  extension : String
  header : List Nat
  footer : List Nat
  maxSize : Nat
deriving DecidableEq

/-- Mirror of `carver.CarvedFile` (minus the output path, which is assigned
during recovery). -/
structure CarvedFile where
  sig : FileSignature
  offset : Nat
  size : Nat
deriving DecidableEq

/-- The bytes of `"ftyp"`. -/
def ftypBytes : List Nat := [102, 116, 121, 112]

/-- Signature test at one scan position: `suffix` is `buf[i:]`.  Mirrors the
body of the inner loop of `Carver.Scan`: the length guard
`len(sig.Header) > n-i`, the `bytes.Equal` header comparison, and the MP4
post-check (`"ftyp"` at `i+4..i+8`, only applied when `i+8 < n`). -/
def sigMatchesAt (sig : FileSignature) (suffix : List Nat) : Bool :=
  if sig.header.length > suffix.length then false
  else if sig.header.isPrefixOf suffix then
    if sig.name = "MP4" ∧ 8 < suffix.length then
      (suffix.drop 4).take 4 == ftypBytes
    else true
  else false

/-- The position loop `for i := 0; i < searchEnd; i++` of `Carver.Scan`,
recorded hits in order.  `suffix` is the unsearched tail of the buffer, `pos`
the absolute device offset of its head, and the counter is `searchEnd - i`. -/
def scanPositions (sigs : List FileSignature) (suffix : List Nat) (pos : Nat) :
    Nat → List CarvedFile
  | 0 => []
  | cnt + 1 =>
    ((sigs.filter fun s => sigMatchesAt s suffix).map
        fun s => ⟨s, pos, s.maxSize⟩) ++
      scanPositions sigs (suffix.drop 1) (pos + 1) cnt

/-- `searchEnd := n - 64; if searchEnd < 0 { searchEnd = n }` from
`Carver.Scan` (Go `int` arithmetic, so the fallback fires exactly when
`n < 64`). -/
def searchEndOf (n : Nat) : Nat := if n < 64 then n else n - 64

/-- Scan buffer size: 1 MiB, clamped down to the device size and up to 128. -/
def scanBufSize (diskSize : Nat) : Nat :=
  let b := if diskSize < 1048576 then diskSize else 1048576
  if b < 128 then 128 else b

/-- `overlap := 1024; if overlap > bufSize/2 { overlap = 0 }`. -/
def scanOverlap (bufSize : Nat) : Nat :=
  if 1024 > bufSize / 2 then 0 else 1024

/-- `advance := n - overlap; if advance <= 0 { advance = n }` (Go `int`
arithmetic: the fallback fires exactly when `n ≤ overlap`). -/
def scanAdvance (n overlap : Nat) : Nat :=
  if n ≤ overlap then n else n - overlap

/-- The buffered read loop of `Carver.Scan`.  `r offset` is the byte count the
positional read at `offset` returns; the buffer content is the corresponding
device segment.  Returns `none` if the fuel runs out before the loop exits. -/
def scanLoop (sigs : List FileSignature) (dev : List Nat) (r : Nat → Nat)
    (overlap : Nat) : Nat → Nat → Option (List CarvedFile)
  | 0, _ => none
  | fuel + 1, offset =>
    if dev.length ≤ offset then some []
    else if r offset = 0 then some []
    else
      match scanLoop sigs dev r overlap fuel
          (offset + scanAdvance (r offset) overlap) with
      | none => none
      | some rest =>
        some (scanPositions sigs ((dev.drop offset).take (r offset)) offset
            (searchEndOf (r offset)) ++ rest)

/-- The full positional read used on list-backed devices: a read at `offset`
returns `min bufSize (size - offset)` bytes. -/
def fullRead (dev : List Nat) (bufSize : Nat) : Nat → Nat :=
  fun offset => min bufSize (dev.length - offset)

/-- `Carver.Scan` over a whole device with the signature table `sigs`
(`SetSignatures` makes the table a parameter). -/
def carverScan (sigs : List FileSignature) (dev : List Nat) :
    Option (List CarvedFile) :=
  scanLoop sigs dev (fullRead dev (scanBufSize dev.length))
    (scanOverlap (scanBufSize dev.length)) (dev.length + 1) 0

/-- `bytes.Index`: first index of `needle` in the haystack, `none` if absent
(Go returns `-1`). -/
def bytesIndex (needle : List Nat) : List Nat → Option Nat
  | [] => if needle.isEmpty then some 0 else none
  | b :: rest =>
    if needle.isPrefixOf (b :: rest) then some 0
    else
      match bytesIndex needle rest with
      | some i => some (i + 1)
      | none => none

/-- The 64 KiB chunk loop of `Carver.RecoverFile`: read up to
`min(64K, maxSize-written)` bytes, stop at a footer match (writing up to and
including it), otherwise write the chunk and continue.  Returns the byte
sequence written to the output file. -/
def carveLoop (dev : List Nat) (footer : List Nat) (maxSize : Nat) :
    Nat → Nat → Nat → List Nat
  | 0, _, _ => []
  | fuel + 1, offset, written =>
    if maxSize ≤ written then []
    else
      let toRead := min 65536 (maxSize - written)
      let n := min toRead (dev.length - offset)
      if n = 0 then []
      else
        let chunk := (dev.drop offset).take n
        match (if 0 < footer.length then bytesIndex footer chunk else none) with
        | some idx => chunk.take (idx + footer.length)
        | none => chunk ++ carveLoop dev footer maxSize fuel (offset + n) (written + n)

/-- `Carver.RecoverFile`: bytes written for a hit at `startOffset` with the
given footer and raw `MaxSize` (0 selects the 10 MiB default). -/
def carveRecover (dev : List Nat) (startOffset : Nat) (footer : List Nat)
    (maxSizeRaw : Nat) : List Nat :=
  let maxSize := if maxSizeRaw = 0 then 10485760 else maxSizeRaw
  carveLoop dev footer maxSize (maxSize + 1) startOffset 0

/-- JPEG entry of the signature table. -/
def jpegSig : FileSignature :=
  ⟨"JPEG", ".jpg", [0xFF, 0xD8, 0xFF], [0xFF, 0xD9], 52428800⟩

/-- BMP entry of the signature table. -/
def bmpSig : FileSignature :=
  ⟨"BMP", ".bmp", [0x42, 0x4D], [], 52428800⟩

/-- The device used in the witness of the carver-hit claim: a JPEG header at
offset 0 followed by 67 bytes of filler. -/
def devW3 : List Nat := [0xFF, 0xD8, 0xFF] ++ List.replicate 67 1

/-- The device of the duplicate-hit counterexample: 2048 bytes, filler value 1
everywhere except a JPEG header at offset 1500. -/
def devC3 : List Nat :=
  List.replicate 1500 1 ++ [0xFF, 0xD8, 0xFF] ++ List.replicate 545 1

/-! ## FAT32 (`internal/fat32/fat32.go`)

`NewParser`/`readBootSector`, `clusterToOffset`, `readCluster` and the
contiguous-cluster extraction loop of `RecoverFile` are embedded.  A cluster
read models `disk.Reader.ReadAt` on a file: it succeeds (returns the full
cluster) exactly when the requested range lies inside the device, and reports
`io.EOF` (here `none`, on which the extraction loop breaks) otherwise.  Cluster
numbers are `uint32` values; the wrap-around subtraction `cluster - 2` and the
additions are taken modulo `2^32` as in Go. -/

/-- Mirror of the fields of `fat32.Parser` (boot-sector fields read by
`readBootSector` plus the derived offsets). -/
structure Fat32Parser where
  bytesPerSector : Nat
  sectorsPerCluster : Nat
  reservedSectors : Nat
  numFATs : Nat
  fatSize32 : Nat
  rootCluster : Nat
  fatStart : Nat
  dataStart : Nat
  clusterSz : Nat
deriving DecidableEq

/-- `fat32.readBootSector`: a 512-byte read at offset 0 (failing, with
`io.EOF`, on devices shorter than 512 bytes), then field extraction and
derived-offset computation.  The Go code performs NO validation of the
extracted fields. -/
def fat32ReadBootSector (dev : List Nat) : Option Fat32Parser :=
  if dev.length < 512 then none
  else
    some
      { bytesPerSector := u16 dev 11
        sectorsPerCluster := dev.getD 13 0
        reservedSectors := u16 dev 14
        numFATs := dev.getD 16 0
        fatSize32 := u32 dev 36
        rootCluster := u32 dev 44
        fatStart := u16 dev 14 * u16 dev 11
        dataStart := u16 dev 14 * u16 dev 11 +
          dev.getD 16 0 * (u32 dev 36 * u16 dev 11)
        clusterSz := dev.getD 13 0 * u16 dev 11 }

/-- `fat32.NewParser`: just `readBootSector`; its only failure mode is a
failing boot-sector read. -/
def fat32NewParser (dev : List Nat) : Option Fat32Parser :=
  fat32ReadBootSector dev

/-- `fat32.clusterToOffset`: `dataStart + int64(cluster-2) * clusterSz`, with
the `uint32` subtraction wrapping for `cluster < 2`. -/
def clusterToOffset (p : Fat32Parser) (cluster : Nat) : Nat :=
  p.dataStart + ((cluster + 4294967296 - 2) % 4294967296) * p.clusterSz

/-- `fat32.readCluster`: full-cluster positional read, `none` on `io.EOF`. -/
def readCluster (dev : List Nat) (p : Fat32Parser) (cluster : Nat) :
    Option (List Nat) :=
  if clusterToOffset p cluster + p.clusterSz ≤ dev.length then
    some ((dev.drop (clusterToOffset p cluster)).take p.clusterSz)
  else none

/-- The cluster loop of `fat32.RecoverFile`; fuel is the loop bound
`clustersNeeded`.  Returns the bytes written and the number of cluster reads
performed. -/
def fat32RecoverLoop (dev : List Nat) (p : Fat32Parser) (size : Nat) :
    Nat → Nat → Nat → List Nat × Nat
  | 0, _, _ => ([], 0)
  | fuel + 1, cluster, written =>
    if size ≤ written then ([], 0)
    else
      match readCluster dev p cluster with
      | none => ([], 1)
      | some data =>
        let rest := fat32RecoverLoop dev p size fuel ((cluster + 1) % 4294967296)
          (written + min data.length (size - written))
        (data.take (min data.length (size - written)) ++ rest.1, rest.2 + 1)

/-- `clustersNeeded := (size + clusterSz - 1) / clusterSz` in `uint32`
arithmetic, with the `if clustersNeeded == 0 { clustersNeeded = 1 }` fixup. -/
def fat32ClustersNeeded (size clusterSz : Nat) : Nat :=
  if ((size + clusterSz + 4294967295) % 4294967296) / clusterSz = 0 then 1
  else ((size + clusterSz + 4294967295) % 4294967296) / clusterSz

/-- `fat32.RecoverFile` for a non-directory entry: contiguous clusters from
`firstCluster`, at most `clustersNeeded` of them, truncating to `size`. -/
def fat32RecoverFile (dev : List Nat) (p : Fat32Parser) (firstCluster size : Nat) :
    List Nat × Nat :=
  fat32RecoverLoop dev p size (fat32ClustersNeeded size p.clusterSz) firstCluster 0

/-- Parser geometry used by the witness of the FAT32 extraction claim. -/
def pW7 : Fat32Parser := ⟨0, 0, 0, 0, 0, 0, 0, 4, 4⟩

/-- Device used by the witness of the FAT32 extraction claim. -/
def devW7 : List Nat :=
  [10, 11, 12, 13, 14, 15, 16, 17, 18, 19, 20, 21, 22, 23, 24, 25, 26, 27, 28, 29]

/-- Parser geometry of the overflow counterexample: cluster size 2 bytes. -/
def pC7 : Fat32Parser := ⟨2, 1, 0, 0, 0, 0, 0, 0, 2⟩

/-- Device of the overflow counterexample: 2^32 bytes of value 7. -/
def devC7 : List Nat := List.replicate 4294967296 7

/-! ## FAT32 directory scan and long file names (`fat32.go`)

The slot loop of `scanDirectory` (one 32-byte slot per step), `parseLFNEntry`
and `parseShortName` are embedded.  Names are modelled as lists of UTF-16
code units (the Go code additionally decodes them to a `string` with
`utf16.Decode`, a step outside the scope of the name-assembly claims). -/

/-- One region of `parseLFNEntry`: up to `cnt` UTF-16LE code units starting at
byte offset `base`, stopping at the first `0x0000` or `0xFFFF` terminator. -/
def lfnRegion (e : List Nat) : Nat → Nat → List Nat
  | _, 0 => []
  | base, cnt + 1 =>
    if u16 e base = 0 ∨ u16 e base = 65535 then []
    else u16 e base :: lfnRegion e (base + 2) cnt

/-- `fat32.parseLFNEntry`: 5 units at offset 1, 6 at 14, 2 at 28, each region
stopping at its first terminator. -/
def parseLFNEntry (e : List Nat) : List Nat :=
  lfnRegion e 1 5 ++ lfnRegion e 14 6 ++ lfnRegion e 28 2

/-- `strings.TrimRight(s, " ")` on byte lists. -/
def trimTrailingSpaces (l : List Nat) : List Nat :=
  (l.reverse.dropWhile fun b => b == 32).reverse

/-- `fat32.parseShortName` (`?` = 63, `.` = 46). -/
def parseShortName (name : List Nat) (isDeleted : Bool) : List Nat :=
  let baseName := trimTrailingSpaces (name.take 8)
  let baseName2 := if isDeleted ∧ baseName ≠ [] then 63 :: baseName.drop 1
    else baseName
  let ext := trimTrailingSpaces ((name.drop 8).take 3)
  if ext ≠ [] then baseName2 ++ 46 :: ext else baseName2

/-- The entry record built by the base-entry branch of `scanDirectory`
(mirrors `fat32.RecoveredFile` minus the path). -/
structure DirEntryRec where
  name : List Nat
  shortName : List Nat
  longName : List Nat
  firstCluster : Nat
  size : Nat
  isDeleted : Bool
  isDir : Bool
deriving DecidableEq

/-- The `RecoveredFile` value the base-entry branch constructs from slot `e`
and the accumulated LFN chain. -/
def baseRecord (e : List Nat) (lfnParts : List (List Nat)) : DirEntryRec where
  name := if lfnParts.join = [] then parseShortName (e.take 11) (e.getD 0 0 == 229)
    else lfnParts.join
  shortName := parseShortName (e.take 11) (e.getD 0 0 == 229)
  longName := lfnParts.join
  firstCluster := u16 e 26 + 65536 * u16 e 20
  size := u32 e 28
  isDeleted := e.getD 0 0 == 229
  isDir := Nat.testBit (e.getD 11 0) 4

/-- The per-slot loop of `fat32.scanDirectory` over a directory's 32-byte
slots: stop at a `0x00` first byte, accumulate LFN slots (resetting the chain
when the `0x40` ordinal bit is set, then prepending), skip volume labels
(chain preserved), and emit a record for every other slot except `.` and `..`
(directory recursion and the deleted-only output filter are outside the
name-assembly model). -/
def scanSlots : List (List Nat) → List (List Nat) → List DirEntryRec
  | [], _ => []
  | e :: rest, lfnParts =>
    if e.getD 0 0 = 0 then []
    else if e.getD 11 0 = 15 then
      scanSlots rest (parseLFNEntry e ::
        (if Nat.testBit (e.getD 0 0) 6 then [] else lfnParts))
    else if Nat.testBit (e.getD 11 0) 3 then
      scanSlots rest lfnParts
    else if (baseRecord e lfnParts).name = [46] ∨
        (baseRecord e lfnParts).name = [46, 46] then
      scanSlots rest []
    else baseRecord e lfnParts :: scanSlots rest []

/-- A usable UTF-16 code unit for an LFN: not a terminator. -/
def LFNUnit (u : Nat) : Prop := u < 65536 ∧ u ≠ 0 ∧ u ≠ 65535

instance (u : Nat) : Decidable (LFNUnit u) := by
  unfold LFNUnit; infer_instance

/-- A well-formed 13-unit-or-shorter LFN fragment. -/
def FragWF (f : List Nat) : Prop := f.length ≤ 13 ∧ ∀ u ∈ f, LFNUnit u

instance (f : List Nat) : Decidable (FragWF f) := by
  unfold FragWF; infer_instance

/-- A name encodable in an LFN chain: nonempty, at most 63 slots worth of
units, all units non-terminators. -/
def LFNString (s : List Nat) : Prop :=
  s ≠ [] ∧ s.length ≤ 819 ∧ ∀ u ∈ s, LFNUnit u

instance (s : List Nat) : Decidable (LFNString s) := by
  unfold LFNString; infer_instance

/-- Split a name into 13-unit fragments (fuel = length). -/
def chunk13 : Nat → List Nat → List (List Nat)
  | 0, _ => []
  | _ + 1, [] => []
  | fuel + 1, s => s.take 13 :: chunk13 fuel (s.drop 13)

/-- The logical fragments `f1, …, fN` of a name. -/
def lfnChunks (s : List Nat) : List (List Nat) := chunk13 s.length s

/-- Padding a fragment to 13 units: terminator `0x0000` then `0xFFFF` fill,
nothing if the fragment is full. -/
def padOf (frag : List Nat) : List Nat :=
  if frag.length = 13 then [] else 0 :: List.replicate (12 - frag.length) 65535

/-- A fragment padded to exactly 13 units. -/
def padTo13 (frag : List Nat) : List Nat := frag ++ padOf frag

/-- UTF-16LE encoding of a unit list. -/
def unitsBytes (us : List Nat) : List Nat :=
  (us.map fun u => [u % 256, u / 256]).join

/-- A 32-byte LFN slot with ordinal byte `ord` carrying `frag`: the 13 padded
units at byte ranges 1–10, 14–25, 28–31, attribute byte 15 at offset 11,
zero type/checksum (12–13) and zero first-cluster field (26–27). -/
def mkLFNSlot (ord : Nat) (frag : List Nat) : List Nat :=
  [ord] ++ (unitsBytes ((padTo13 frag).take 5) ++
    ([15, 0, 0] ++ (unitsBytes (((padTo13 frag).drop 5).take 6) ++
      ([0, 0] ++ unitsBytes ((padTo13 frag).drop 11)))))

/-- On-disk slot order of an LFN chain for fragments `fs` with first ordinal
`k`: last fragment's slot (with the `0x40` terminator bit) first. -/
def encodeChainAux : List (List Nat) → Nat → List (List Nat)
  | [], _ => []
  | f :: rest, k =>
    encodeChainAux rest (k + 1) ++
      [mkLFNSlot (if rest.isEmpty then k + 64 else k) f]

/-- The on-disk LFN chain encoding the name `s`. -/
def encodeLFNChain (s : List Nat) : List (List Nat) :=
  encodeChainAux (lfnChunks s) 1

/-- A plain base slot (short name `ABC.TXT`-style, attribute byte `0x20`)
used in the LFN witnesses. -/
def baseW8 : List Nat :=
  [65, 66, 67, 32, 32, 32, 32, 32, 84, 88, 84, 32, 0, 0, 0, 0,
   0, 0, 0, 0, 0, 0, 0, 0, 0, 0, 5, 0, 16, 0, 0, 0]

/-! ## NTFS (`internal/ntfs/ntfs.go`)

`parseDataRuns` and the extraction loop of `ntfs.RecoverFile` are embedded.
Byte values are `Nat`s below 256; Go's `int64` values are modelled as exact
integers with explicit reduction (`wrap64`, `toInt64`) at the points where the
Go code's fixed-width arithmetic can wrap.  `runSpans` and `attrSpans` mirror
the consumption pattern of `parseDataRuns`' and `parseAttributes`' loops,
recording the byte extent each iteration touches. -/

/-- Mirror of `ntfs.DataRun`. -/
structure DataRun where
  offset : Int
  length : Nat
deriving DecidableEq

/-- `length |= uint64(b) << (8*j)` accumulation: little-endian byte sum with
Go's shift semantics (shifts of 64 or more bits contribute nothing). -/
def leByteSum : List Nat → Nat → Nat
  | [], _ => 0
  | b :: rest, j => (if j < 8 then b * 2 ^ (8 * j) else 0) + leByteSum rest (j + 1)

/-- The bits OR-ed in by the sign-extension loop
`for j := offBytes; j < 8 { offset |= 0xFF << (8*j) }`. -/
def signExtBits (w : Nat) : Nat :=
  if w < 8 then 18446744073709551616 - 2 ^ (8 * w) else 0

/-- Signed decoding of a data run's offset bytes: little-endian accumulation,
sign-extended from the top bit of the last byte, read as an `int64`. -/
def decodeRunOffset (bytes : List Nat) : Int :=
  if Nat.testBit (bytes.getLastD 0) 7 then
    toInt64 (leByteSum bytes 0 + signExtBits bytes.length)
  else toInt64 (leByteSum bytes 0)

/-- The decoding loop of `ntfs.parseDataRuns` over the run-list bytes:
header nibbles give the length/offset byte counts, a `0x00` header or a run
extending past the data ends the list, and the absolute LCN is the running
(wrapping `int64`) sum of deltas.  A run with no offset bytes adds delta 0. -/
def runLoop : Nat → List Nat → Int → List DataRun
  | 0, _, _ => []
  | _ + 1, [], _ => []
  | fuel + 1, h :: rest, lcn =>
    if h = 0 then []
    else
      let lenBytes := h % 16
      let offBytes := h / 16
      if rest.length < lenBytes + offBytes then []
      else
        let offset : Int := if 0 < offBytes then
          decodeRunOffset ((rest.drop lenBytes).take offBytes) else 0
        let lcn2 := wrap64 (lcn + offset)
        ⟨lcn2, leByteSum (rest.take lenBytes) 0⟩ ::
          runLoop fuel (rest.drop (lenBytes + offBytes)) lcn2

/-- `ntfs.parseDataRuns`: read the run-list offset at attribute offset 32 and
decode from there (empty when the offset lies outside the attribute). -/
def parseDataRuns (attr : List Nat) : List DataRun :=
  if attr.length ≤ u16 attr 32 then []
  else runLoop ((attr.drop (u16 attr 32)).length + 1) (attr.drop (u16 attr 32)) 0

/-- The byte extents `(start, 1 + lenBytes + offBytes)` consumed by the
iterations of `parseDataRuns`' loop (same control flow as `runLoop`). -/
def runSpanLoop : Nat → List Nat → Nat → List (Nat × Nat)
  | 0, _, _ => []
  | _ + 1, [], _ => []
  | fuel + 1, h :: rest, i =>
    if h = 0 then []
    else if rest.length < h % 16 + h / 16 then []
    else (i, 1 + h % 16 + h / 16) ::
      runSpanLoop fuel (rest.drop (h % 16 + h / 16)) (i + 1 + h % 16 + h / 16)

/-- Byte extents consumed from a run-list byte string. -/
def runSpans (data : List Nat) : List (Nat × Nat) :=
  runSpanLoop (data.length + 1) data 0

/-- The `(offset, length)` pairs of the attributes `ntfs.parseAttributes`
dispatches: iteration starts at the record's attrs-offset, reads a 4-byte type
and length at each position, and stops on the end marker `0xFFFFFFFF`, type 0,
zero length, or a length exceeding the remaining record. -/
def attrLoop (record : List Nat) : Nat → Nat → List (Nat × Nat)
  | 0, _ => []
  | fuel + 1, offset =>
    if record.length ≤ offset + 16 then []
    else if u32 record offset = 4294967295 ∨ u32 record offset = 0 then []
    else if u32 record (offset + 4) = 0 ∨
        record.length - offset < u32 record (offset + 4) then []
    else (offset, u32 record (offset + 4)) ::
      attrLoop record fuel (offset + u32 record (offset + 4))

/-- Dispatched attribute spans of an MFT record. -/
def attrSpans (record : List Nat) : List (Nat × Nat) :=
  attrLoop record (record.length + 1) (u16 record 20)

/-- The per-cluster read loop of `ntfs.RecoverFile` for one non-sparse run
(fuel = remaining cluster count of the run).  A read at a negative offset is a
fatal (non-`io.EOF`) error (`none`); a read past the end of the device is
`io.EOF` and breaks out of the cluster loop. -/
def ntfsClusterLoop (dev : List Nat) (clusterSize size : Nat) (runOffset : Int) :
    Nat → Nat → Nat → Option (List Nat × Nat)
  | 0, _, written => some ([], written)
  | fuel + 1, c, written =>
    if size ≤ written then some ([], written)
    else if (runOffset * clusterSize + c * clusterSize : Int) < 0 then none
    else if (runOffset * clusterSize + c * clusterSize : Int).toNat +
        clusterSize ≤ dev.length then
      match ntfsClusterLoop dev clusterSize size runOffset fuel (c + 1)
          (written + min clusterSize (size - written)) with
      | some r => some
          (((dev.drop (runOffset * clusterSize + c * clusterSize : Int).toNat).take
              clusterSize).take (min clusterSize (size - written)) ++ r.1, r.2)
      | none => none
    else some ([], written)

/-- The per-run loop of `ntfs.RecoverFile`: a run whose decoded `Offset` is 0
is treated as sparse and zero-filled (clipped to the remaining size); any
other run has its clusters read in sequence. -/
def ntfsRunLoop (dev : List Nat) (clusterSize size : Nat) :
    List DataRun → Nat → Option (List Nat)
  | [], _ => some []
  | run :: rest, written =>
    if run.offset = 0 then
      match ntfsRunLoop dev clusterSize size rest
          (written + min (run.length * clusterSize) (size - written)) with
      | some out => some (List.replicate
          (min (run.length * clusterSize) (size - written)) 0 ++ out)
      | none => none
    else
      match ntfsClusterLoop dev clusterSize size run.offset run.length 0 written with
      | some r =>
        match ntfsRunLoop dev clusterSize size rest r.2 with
        | some out => some (r.1 ++ out)
        | none => none
      | none => none

/-- `ntfs.RecoverFile` for a non-directory entry: the bytes written, `none` on
a fatal read error. -/
def ntfsRecoverFile (dev : List Nat) (clusterSize : Nat) (runs : List DataRun)
    (size : Nat) : Option (List Nat) :=
  ntfsRunLoop dev clusterSize size runs 0

/-- MFT record used by the bounds witness: attrs offset 24, one 32-byte
`$DATA` attribute at offset 24, end marker at 56. -/
def recW9 : List Nat :=
  [70, 73, 76, 69, 0, 0, 0, 0, 0, 0, 0, 0, 0, 0, 0, 0,
   0, 0, 0, 0, 24, 0, 0, 0, 128, 0, 0, 0, 32, 0, 0, 0,
   0, 0, 0, 0, 0, 0, 0, 0, 0, 0, 0, 0, 0, 0, 0, 0,
   0, 0, 0, 0, 0, 0, 0, 0, 255, 255, 255, 255]

/-- Run-list bytes used by the bounds witness: one 3-byte run then the end
marker. -/
def dataW9 : List Nat := [17, 1, 100, 0]

/-! ### C4: data-run decoding

To state the round-trip, a well-formed encoding of a run list is defined: the
spec-side `runsSpec` gives the intended decoding (lengths as written, LCNs as
running sums of the signed deltas), and the theorem says `parseDataRuns`
computes exactly that whenever every prefix sum fits in `int64`. -/

/-- An encoder-side description of one data run: byte widths chosen for the
length and offset fields, the signed LCN delta, and the run length. -/
structure EncRun where
  lenBytes : Nat
  offBytes : Nat
  delta : Int
  runLen : Nat
deriving DecidableEq

/-- Well-formedness of an `EncRun`: field widths at most 8 bytes and not both
zero, the run length representable in `lenBytes` bytes, and the delta
representable in `offBytes` bytes as a two's-complement value (zero when there
are no offset bytes). -/
def EncRun.WF (r : EncRun) : Prop :=
  r.lenBytes ≤ 8 ∧ r.offBytes ≤ 8 ∧ 1 ≤ r.lenBytes + r.offBytes ∧
  r.runLen < 2 ^ (8 * r.lenBytes) ∧
  (r.offBytes = 0 → r.delta = 0) ∧
  (1 ≤ r.offBytes → -(2 ^ (8 * r.offBytes - 1) : Int) ≤ r.delta ∧
    r.delta < 2 ^ (8 * r.offBytes - 1))

instance (r : EncRun) : Decidable r.WF := by
  unfold EncRun.WF; infer_instance

/-- Little-endian encoding of `v` in `w` bytes. -/
def leEncode : Nat → Nat → List Nat
  | 0, _ => []
  | w + 1, v => v % 256 :: leEncode w (v / 256)

/-- The byte string of one run: header nibbles, then the length field, then
the two's-complement offset field. -/
def EncRun.toBytes (r : EncRun) : List Nat :=
  (r.offBytes * 16 + r.lenBytes) :: (leEncode r.lenBytes r.runLen ++
    leEncode r.offBytes (r.delta.emod (2 ^ (8 * r.offBytes))).toNat)

/-- A run-list byte string: the runs' bytes followed by the `0x00` end
marker. -/
def encodeRuns (rs : List EncRun) : List Nat :=
  (rs.map EncRun.toBytes).join ++ [0]

/-- A minimal non-resident attribute whose run-list offset (at byte 32) is 34
and whose run-list bytes follow immediately. -/
def mkRunAttr (runBytes : List Nat) : List Nat :=
  List.replicate 32 0 ++ [34, 0] ++ runBytes

/-- Sum of the deltas of a run list. -/
def deltaSum (rs : List EncRun) : Int := (rs.map EncRun.delta).sum

/-- Spec-side decoding (from the claim's words): each run's length is as
encoded, and its LCN is the running sum of the signed deltas. -/
def runsSpec : List EncRun → Int → List DataRun
  | [], _ => []
  | r :: rest, lcn => ⟨lcn + r.delta, r.runLen⟩ :: runsSpec rest (lcn + r.delta)

/-- Encoded run list for the decoding witness: a run of 16 clusters at delta
+100, then a run of 3 clusters at delta −50 (decoded LCNs 100 and 50). -/
def rsW4 : List EncRun := [⟨1, 1, 100, 16⟩, ⟨1, 1, -50, 3⟩]

/-- Non-resident `$DATA` attribute encoding the runs
`[(Δ=100, L=1), (sparse, L=2), (Δ=3, L=1)]` (run-list offset 34). -/
def attrC1 : List Nat :=
  List.replicate 32 0 ++ [34, 0, 17, 1, 100, 1, 2, 17, 1, 3, 0]

/-- Device for the sparse scenario at cluster size 1: cluster 100 holds 65,
cluster 101 holds 66, cluster 103 holds 67. -/
def devC1 : List Nat := List.replicate 100 0 ++ [65, 66, 99, 67]

theorem wrap64_eq_of_inI64 {z : Int} (h : InI64 z) : wrap64 z = z := by
  obtain ⟨h1, h2⟩ := h
  unfold wrap64
  rw [Int.emod_eq_of_lt (by omega) (by omega)]
  omega

/-! ### Carver lemmas -/

theorem isPrefixOf_length_le :
    ∀ p l : List Nat, p.isPrefixOf l = true → p.length ≤ l.length := by
  intro p
  induction p with
  | nil => intro l _; simp
  | cons a p ih =>
    intro l h
    cases l with
    | nil => simp [List.isPrefixOf] at h
    | cons b l =>
      simp only [List.isPrefixOf, Bool.and_eq_true] at h
      simpa using ih l h.2

theorem bytesIndex_bound (needle : List Nat) :
    ∀ hay idx, bytesIndex needle hay = some idx →
      idx + needle.length ≤ hay.length := by
  intro hay
  induction hay with
  | nil =>
    intro idx h
    unfold bytesIndex at h
    by_cases hne : needle.isEmpty
    · simp [hne] at h
      rcases needle with _ | ⟨x, xs⟩
      · simp [← h]
      · simp [List.isEmpty] at hne
    · simp [hne] at h
  | cons b rest ih =>
    intro idx h
    unfold bytesIndex at h
    by_cases hp : needle.isPrefixOf (b :: rest) = true
    · simp [hp] at h
      have := isPrefixOf_length_le needle (b :: rest) hp
      simp [← h]
      simpa using this
    · simp [hp] at h
      cases hbi : bytesIndex needle rest with
      | none => rw [hbi] at h; simp at h
      | some j =>
        rw [hbi] at h
        simp at h
        have := ih j hbi
        simp [← h]
        omega

theorem carveLoop_length_le (dev footer : List Nat) (maxSize : Nat) :
    ∀ fuel offset written, written ≤ maxSize →
      (carveLoop dev footer maxSize fuel offset written).length ≤
        maxSize - written := by
  intro fuel
  induction fuel with
  | zero => intro offset written _; simp [carveLoop]
  | succ fuel ih =>
    intro offset written hw
    unfold carveLoop
    by_cases h1 : maxSize ≤ written
    · simp [h1]
    · simp only [h1, if_false]
      set toRead := min 65536 (maxSize - written) with htr
      set n := min toRead (dev.length - offset) with hn
      by_cases h2 : n = 0
      · simp [h2]
      · simp only [h2, if_false]
        have hchunklen : ((dev.drop offset).take n).length = n := by
          simp [List.length_take, List.length_drop]
          omega
        have hnles : n ≤ maxSize - written := by omega
        cases hf : (if 0 < footer.length then
            bytesIndex footer ((dev.drop offset).take n) else none) with
        | some idx =>
          simp only [hf]
          have hidx : idx + footer.length ≤ n := by
            by_cases hfl : 0 < footer.length
            · simp [hfl] at hf
              have := bytesIndex_bound footer _ idx hf
              omega
            · simp [hfl] at hf
          calc (((dev.drop offset).take n).take (idx + footer.length)).length
              ≤ idx + footer.length := by simp
            _ ≤ maxSize - written := by omega
        | none =>
          simp only [hf]
          rw [List.length_append]
          have hrec := ih (offset + n) (written + n) (by omega)
          omega

/-- C10: every carved output is bounded by the signature's `MaxSize` (with 0
mapped to the 10 MiB default); a footer match only writes bytes of the current
chunk, so the bound also holds when extraction stops at the footer. -/
theorem carver_recover_size_bounded
    (dev : List Nat) (startOffset : Nat) (footer : List Nat) (maxSizeRaw : Nat) :
    (carveRecover dev startOffset footer maxSizeRaw).length ≤
      (if maxSizeRaw = 0 then 10485760 else maxSizeRaw) := by
  unfold carveRecover
  have h := carveLoop_length_le dev footer
    (if maxSizeRaw = 0 then 10485760 else maxSizeRaw)
    ((if maxSizeRaw = 0 then 10485760 else maxSizeRaw) + 1) startOffset 0
    (by omega)
  simpa using h

theorem scanLoop_isSome (sigs : List FileSignature) (dev : List Nat)
    (r : Nat → Nat) (overlap : Nat) :
    ∀ fuel offset, dev.length - offset < fuel →
      (scanLoop sigs dev r overlap fuel offset).isSome = true := by
  intro fuel
  induction fuel with
  | zero => intro offset h; omega
  | succ fuel ih =>
    intro offset h
    unfold scanLoop
    by_cases h1 : dev.length ≤ offset
    · simp [h1]
    · simp only [h1, if_false]
      by_cases h2 : r offset = 0
      · simp [h2]
      · simp only [h2, if_false]
        have hadv : 1 ≤ scanAdvance (r offset) overlap := by
          unfold scanAdvance
          by_cases h3 : r offset ≤ overlap <;> simp [h3] <;> omega
        have hrec := ih (offset + scanAdvance (r offset) overlap) (by omega)
        cases hs : scanLoop sigs dev r overlap fuel
            (offset + scanAdvance (r offset) overlap) with
        | none => rw [hs] at hrec; simp at hrec
        | some rest => simp [hs]

/-- C6: the carver scan terminates on every input.  For any device, any read
oracle and any overlap, fuel `size + 1` never runs out (the loop performs at
most `size - cursor` further iterations), because each non-stopping iteration
advances the cursor by `scanAdvance n overlap ≥ 1`; the loop stops when the
cursor reaches the device size or a read returns 0 bytes. -/
theorem carver_scan_terminates :
    (∀ (sigs : List FileSignature) (dev : List Nat) (r : Nat → Nat)
       (overlap fuel offset : Nat), dev.length - offset < fuel →
         (scanLoop sigs dev r overlap fuel offset).isSome = true) ∧
    (∀ n overlap : Nat, 1 ≤ n → 1 ≤ scanAdvance n overlap) := by
  constructor
  · intro sigs dev r overlap fuel offset h
    exact scanLoop_isSome sigs dev r overlap fuel offset h
  · intro n overlap h
    unfold scanAdvance
    by_cases h3 : n ≤ overlap <;> simp [h3] <;> omega

/-- Witness for `carver_scan_terminates` at a concrete device and read oracle. -/
theorem carver_scan_terminates_witness :
    ((3 : Nat) - 0 < 4 ∧
      (scanLoop [] [0, 0, 0] (fullRead [0, 0, 0] 128) 0 4 0).isSome = true) ∧
    (1 ≤ 5 ∧ 1 ≤ scanAdvance 5 0) :=
  ⟨⟨by decide,
      carver_scan_terminates.1 [] [0, 0, 0] (fullRead [0, 0, 0] 128) 0 4 0
        (by decide)⟩,
    ⟨by decide, carver_scan_terminates.2 5 0 (by decide)⟩⟩

/-- Membership in the position loop's hit list: exactly the positions
`i < cnt`, with the signatures matching at the corresponding suffix. -/
theorem mem_scanPositions (sigs : List FileSignature) :
    ∀ (cnt : Nat) (suffix : List Nat) (pos : Nat) (h : CarvedFile),
      h ∈ scanPositions sigs suffix pos cnt ↔
        ∃ i, i < cnt ∧ ∃ s, s ∈ sigs ∧ sigMatchesAt s (suffix.drop i) = true ∧
          h = ⟨s, pos + i, s.maxSize⟩ := by
  intro cnt
  induction cnt with
  | zero => intro suffix pos h; simp [scanPositions]
  | succ cnt ih =>
    intro suffix pos h
    unfold scanPositions
    rw [List.mem_append]
    constructor
    · intro hmem
      cases hmem with
      | inl hl =>
        simp only [List.mem_map, List.mem_filter] at hl
        obtain ⟨s, ⟨hs, hm⟩, he⟩ := hl
        exact ⟨0, by omega, s, hs, by simpa using hm, by simp [← he]⟩
      | inr hr =>
        rw [ih] at hr
        obtain ⟨i, hi, s, hs, hm, he⟩ := hr
        refine ⟨i + 1, by omega, s, hs, ?_, ?_⟩
        · simpa [List.drop_drop] using hm
        · simpa [Nat.add_assoc, Nat.add_comm 1 i] using he
    · rintro ⟨i, hi, s, hs, hm, he⟩
      cases i with
      | zero =>
        left
        simp only [List.mem_map, List.mem_filter]
        exact ⟨s, ⟨hs, by simpa using hm⟩, by simp [he]⟩
      | succ i =>
        right
        rw [ih]
        refine ⟨i, by omega, s, hs, ?_, ?_⟩
        · simpa [List.drop_drop] using hm
        · simpa [Nat.add_assoc, Nat.add_comm 1 i] using he

/-- C5 (amended): the positions searched in a buffer of `n` read bytes are
exactly `[0, n-64)` when `n ≥ 64` but `[0, n)` when `n < 64` — the code falls
back to searching the whole buffer (not zero positions) on reads shorter than
64 bytes. -/
theorem carver_search_window :
    (∀ n, 64 ≤ n → searchEndOf n = n - 64) ∧
    (∀ n, n < 64 → searchEndOf n = n) ∧
    (∀ (sigs : List FileSignature) (buf : List Nat) (offset n : Nat)
       (h : CarvedFile),
        h ∈ scanPositions sigs buf offset (searchEndOf n) ↔
          ∃ i, i < searchEndOf n ∧ ∃ s, s ∈ sigs ∧
            sigMatchesAt s (buf.drop i) = true ∧ h = ⟨s, offset + i, s.maxSize⟩) := by
  refine ⟨?_, ?_, ?_⟩
  · intro n hn; unfold searchEndOf; simp [Nat.not_lt.mpr hn]
  · intro n hn; unfold searchEndOf; simp [hn]
  · intro sigs buf offset n h
    exact mem_scanPositions sigs (searchEndOf n) buf offset h

/-- Witness for `carver_search_window` at concrete inputs. -/
theorem carver_search_window_witness :
    (64 ≤ 100 ∧ searchEndOf 100 = 36) ∧ (10 < 64 ∧ searchEndOf 10 = 10) :=
  ⟨⟨by decide, carver_search_window.1 100 (by decide)⟩,
    ⟨by decide, carver_search_window.2.1 10 (by decide)⟩⟩

/-! ### Prefix and geometry lemmas for the scan -/

theorem isPrefixOf_iff_take :
    ∀ p l : List Nat, p.isPrefixOf l = true ↔ l.take p.length = p := by
  intro p
  induction p with
  | nil => intro l; simp [List.isPrefixOf]
  | cons a p ih =>
    intro l
    cases l with
    | nil => simp [List.isPrefixOf]
    | cons b l =>
      simp only [List.isPrefixOf, Bool.and_eq_true, beq_iff_eq, List.length_cons,
        List.take_succ_cons, List.cons.injEq]
      rw [ih l]
      constructor
      · rintro ⟨h1, h2⟩; exact ⟨h1.symm, h2⟩
      · rintro ⟨h1, h2⟩; exact ⟨h1.symm, h2⟩

theorem isPrefixOf_take {p l : List Nat} {m : Nat}
    (h : p.isPrefixOf l = true) (hm : p.length ≤ m) :
    p.isPrefixOf (l.take m) = true := by
  rw [isPrefixOf_iff_take] at h ⊢
  rw [List.take_take, min_eq_left hm, h]

theorem isPrefixOf_of_take {p l : List Nat} {m : Nat}
    (h : p.isPrefixOf (l.take m) = true) :
    p.isPrefixOf l = true := by
  have hlen := isPrefixOf_length_le p _ h
  rw [isPrefixOf_iff_take] at h ⊢
  rw [List.take_take] at h
  have hmin : min p.length m = p.length := by
    simp [List.length_take] at hlen; omega
  rwa [hmin] at h

theorem sigMatchesAt_header {s : FileSignature} {suffix : List Nat}
    (h : sigMatchesAt s suffix = true) :
    s.header.isPrefixOf suffix = true := by
  unfold sigMatchesAt at h
  by_cases h1 : s.header.length > suffix.length
  · simp [h1] at h
  · simp only [h1, if_false] at h
    by_cases h2 : s.header.isPrefixOf suffix = true
    · exact h2
    · simp [h2] at h

theorem scanBufSize_ge (d : Nat) : 128 ≤ scanBufSize d := by
  simp only [scanBufSize]
  split_ifs <;> omega

theorem scanOverlap_eq (b : Nat) : scanOverlap b = 0 ∨ scanOverlap b = 1024 := by
  unfold scanOverlap; split_ifs <;> simp

theorem scanOverlap_zero_le {d : Nat} (h : scanOverlap (scanBufSize d) = 0) :
    d ≤ scanBufSize d := by
  simp only [scanOverlap, scanBufSize] at h ⊢
  split_ifs at h ⊢ <;> omega

theorem scanOverlap_1024_ge {b : Nat} (h : scanOverlap b = 1024) : 2048 ≤ b := by
  simp only [scanOverlap] at h
  split_ifs at h with h1 <;> omega

theorem scanAdvance_pos {n overlap : Nat} (h : 1 ≤ n) :
    1 ≤ scanAdvance n overlap := by
  unfold scanAdvance; split_ifs <;> omega

theorem scanAdvance_of_le {n overlap : Nat} (h : n ≤ overlap) :
    scanAdvance n overlap = n := by
  unfold scanAdvance; simp [h]

theorem scanAdvance_of_gt {n overlap : Nat} (h : overlap < n) :
    scanAdvance n overlap = n - overlap := by
  unfold scanAdvance; rw [if_neg]; omega

theorem scanLoop_succ (sigs : List FileSignature) (dev : List Nat)
    (r : Nat → Nat) (overlap fuel offset : Nat) :
    scanLoop sigs dev r overlap (fuel + 1) offset =
      if dev.length ≤ offset then some []
      else if r offset = 0 then some []
      else
        match scanLoop sigs dev r overlap fuel
            (offset + scanAdvance (r offset) overlap) with
        | none => none
        | some rest =>
          some (scanPositions sigs ((dev.drop offset).take (r offset)) offset
              (searchEndOf (r offset)) ++ rest) := rfl

/-- Soundness of the scan: every recorded hit's signature is in the table and
its header occurs on the device at the hit's start offset. -/
theorem scanLoop_sound (sigs : List FileSignature) (dev : List Nat)
    (r : Nat → Nat) (overlap : Nat) :
    ∀ fuel offset hits, scanLoop sigs dev r overlap fuel offset = some hits →
      ∀ h ∈ hits, h.sig ∈ sigs ∧
        h.sig.header.isPrefixOf (dev.drop h.offset) = true := by
  intro fuel
  induction fuel with
  | zero => intro offset hits hsome; simp [scanLoop] at hsome
  | succ fuel ih =>
    intro offset hits hsome h hmem
    rw [scanLoop_succ] at hsome
    by_cases h1 : dev.length ≤ offset
    · rw [if_pos h1] at hsome
      obtain rfl : ([] : List CarvedFile) = hits := by simpa using hsome
      simp at hmem
    · rw [if_neg h1] at hsome
      by_cases h2 : r offset = 0
      · rw [if_pos h2] at hsome
        obtain rfl : ([] : List CarvedFile) = hits := by simpa using hsome
        simp at hmem
      · rw [if_neg h2] at hsome
        cases hrec : scanLoop sigs dev r overlap fuel
            (offset + scanAdvance (r offset) overlap) with
        | none => rw [hrec] at hsome; simp at hsome
        | some rest =>
          rw [hrec] at hsome
          simp only [Option.some.injEq] at hsome
          rw [← hsome, List.mem_append] at hmem
          cases hmem with
          | inl hl =>
            rw [mem_scanPositions] at hl
            obtain ⟨i, hi, s, hs, hm, he⟩ := hl
            subst he
            refine ⟨hs, ?_⟩
            have hpre := sigMatchesAt_header hm
            have hdt : ((dev.drop offset).take (r offset)).drop i =
                ((dev.drop (offset + i)).take (r offset - i)) := by
              rw [List.drop_take, List.drop_drop]
            rw [hdt] at hpre
            exact isPrefixOf_of_take hpre
          | inr hr => exact ih _ rest hrec h hr

/-- Coverage of the scan: if signature `s0`'s header occurs on the device at
offset `k` with at least `len(header) + 64` bytes after `k`, and the MP4
post-check passes there when applicable, the full-read scan records the hit
`(s0, k)`. -/
theorem scanLoop_covers (sigs : List FileSignature) (dev : List Nat)
    (s0 : FileSignature) (k : Nat)
    (hmem : s0 ∈ sigs)
    (hh : s0.header ≠ [])
    (hhl : s0.header.length ≤ 64)
    (hocc : s0.header.isPrefixOf (dev.drop k) = true)
    (hpost : s0.name = "MP4" → ftypBytes.isPrefixOf (dev.drop (k + 4)) = true)
    (hk : k + s0.header.length + 64 ≤ dev.length) :
    ∀ fuel offset, dev.length - offset < fuel → offset ≤ k →
      ∃ hits,
        scanLoop sigs dev (fullRead dev (scanBufSize dev.length))
            (scanOverlap (scanBufSize dev.length)) fuel offset = some hits ∧
          (⟨s0, k, s0.maxSize⟩ : CarvedFile) ∈ hits := by
  have hlen1 : 1 ≤ s0.header.length := List.length_pos.mpr hh
  have hB128 : 128 ≤ scanBufSize dev.length := scanBufSize_ge dev.length
  intro fuel
  induction fuel with
  | zero => intro offset hfuel _; omega
  | succ fuel ih =>
    intro offset hfuel hok
    have hklen : k < dev.length := by omega
    have hoff : ¬ dev.length ≤ offset := by omega
    have hnval : fullRead dev (scanBufSize dev.length) offset =
        min (scanBufSize dev.length) (dev.length - offset) := rfl
    have hn1 : 1 ≤ fullRead dev (scanBufSize dev.length) offset := by
      rw [hnval]; omega
    have hn0 : ¬ fullRead dev (scanBufSize dev.length) offset = 0 := by omega
    set B := scanBufSize dev.length with hBdef
    set n := fullRead dev B offset with hndef
    have hnle : n ≤ dev.length - offset := by rw [hnval]; omega
    have hadv1 : 1 ≤ scanAdvance n (scanOverlap B) := scanAdvance_pos hn1
    have hrecsome := scanLoop_isSome sigs dev (fullRead dev B) (scanOverlap B)
      fuel (offset + scanAdvance n (scanOverlap B)) (by omega)
    obtain ⟨rest, hrest⟩ := Option.isSome_iff_exists.mp hrecsome
    by_cases hcase : k < offset + searchEndOf n
    · -- the hit is recorded in this iteration
      have h64 : 64 ≤ n := by
        by_contra h64
        have hse : searchEndOf n = n := by unfold searchEndOf; rw [if_pos]; omega
        have hnfull : n = dev.length - offset := by rw [hnval]; omega
        rw [hse] at hcase
        omega
      have hse : searchEndOf n = n - 64 := by
        unfold searchEndOf; rw [if_neg]; omega
      rw [hse] at hcase
      have hi : k - offset < n - 64 := by omega
      have hmatch : sigMatchesAt s0
          (((dev.drop offset).take n).drop (k - offset)) = true := by
        have hdt : ((dev.drop offset).take n).drop (k - offset) =
            (dev.drop k).take (n - (k - offset)) := by
          rw [List.drop_take, List.drop_drop]
          have : offset + (k - offset) = k := by omega
          rw [this]
        rw [hdt]
        have hsuffl : ((dev.drop k).take (n - (k - offset))).length =
            n - (k - offset) := by
          simp [List.length_take, List.length_drop]
          omega
        unfold sigMatchesAt
        rw [if_neg (by rw [hsuffl]; omega)]
        rw [if_pos (isPrefixOf_take hocc (by omega))]
        by_cases hmp4 : s0.name = "MP4" ∧
            8 < ((dev.drop k).take (n - (k - offset))).length
        · rw [if_pos hmp4]
          have hftyp := hpost hmp4.1
          have hd4 : ((dev.drop k).take (n - (k - offset))).drop 4 =
              (dev.drop (k + 4)).take (n - (k - offset) - 4) := by
            rw [List.drop_take, List.drop_drop]
          rw [hd4, List.take_take, min_eq_left (by omega)]
          rw [isPrefixOf_iff_take] at hftyp
          have h4 : ftypBytes.length = 4 := rfl
          rw [h4] at hftyp
          rw [hftyp]
          simp
        · rw [if_neg hmp4]
      refine ⟨scanPositions sigs ((dev.drop offset).take n) offset
          (searchEndOf n) ++ rest, ?_, ?_⟩
      · rw [scanLoop_succ, if_neg hoff, if_neg hn0, hrest]
      · apply List.mem_append_left
        rw [mem_scanPositions]
        refine ⟨k - offset, by omega, s0, hmem, hmatch, ?_⟩
        have : offset + (k - offset) = k := by omega
        rw [this]
    · -- recurse: the next iteration's window still starts at or before k
      rcases scanOverlap_eq B with hO | hO
      · -- no overlap ⇒ the device fits into one buffer; contradiction
        exfalso
        have hdB : dev.length ≤ B := scanOverlap_zero_le (hBdef ▸ hO)
        have hnfull : n = dev.length - offset := by rw [hnval]; omega
        by_cases h64 : n < 64
        · have hse : searchEndOf n = n := by unfold searchEndOf; rw [if_pos h64]
          rw [hse] at hcase; omega
        · have hse : searchEndOf n = n - 64 := by
            unfold searchEndOf; rw [if_neg h64]
          rw [hse] at hcase; omega
      · have hB2048 : 2048 ≤ B := scanOverlap_1024_ge (hBdef ▸ hO)
        by_cases hn1024 : n ≤ 1024
        · exfalso
          have hnfull : n = dev.length - offset := by rw [hnval]; omega
          by_cases h64 : n < 64
          · have hse : searchEndOf n = n := by unfold searchEndOf; rw [if_pos h64]
            rw [hse] at hcase; omega
          · have hse : searchEndOf n = n - 64 := by
              unfold searchEndOf; rw [if_neg h64]
            rw [hse] at hcase; omega
        · have hadv : scanAdvance n (scanOverlap B) = n - 1024 := by
            rw [hO]; exact scanAdvance_of_gt (by omega)
          have hse : searchEndOf n = n - 64 := by
            unfold searchEndOf; rw [if_neg]; omega
          rw [hse] at hcase
          have hok' : offset + scanAdvance n (scanOverlap B) ≤ k := by
            rw [hadv]; omega
          obtain ⟨hits', hsome', hmem'⟩ := ih
            (offset + scanAdvance n (scanOverlap B)) (by omega) hok'
          refine ⟨scanPositions sigs ((dev.drop offset).take n) offset
              (searchEndOf n) ++ hits', ?_, List.mem_append_right _ hmem'⟩
          rw [scanLoop_succ, if_neg hoff, if_neg hn0, hsome']

/-- C3 (amended): if a signature's header occurs on the device at offset `k`
(with `k + len(header) + 64 ≤ size` and a passing post-check) and no signature
of the table has a header occurrence anywhere else, then the scan completes,
produces at least one hit, and every produced hit starts at `k`.  (The original
"exactly one hit" fails: a hit inside the 1 KiB overlap window is recorded by
both of the two buffer reads that scan it — see the counterexample.) -/
theorem carver_scan_hit_offsets (sigs : List FileSignature) (dev : List Nat)
    (s0 : FileSignature) (k : Nat)
    (hmem : s0 ∈ sigs)
    (hh : s0.header ≠ [])
    (hhl : s0.header.length ≤ 64)
    (hocc : s0.header.isPrefixOf (dev.drop k) = true)
    (hpost : s0.name = "MP4" → ftypBytes.isPrefixOf (dev.drop (k + 4)) = true)
    (hk : k + s0.header.length + 64 ≤ dev.length)
    (huniq : ∀ p s, s ∈ sigs → s.header.isPrefixOf (dev.drop p) = true → p = k) :
    ∃ hits, carverScan sigs dev = some hits ∧ hits ≠ [] ∧
      ∀ h ∈ hits, h.offset = k := by
  obtain ⟨hits, hsome, hmemhit⟩ := scanLoop_covers sigs dev s0 k hmem hh hhl
    hocc hpost hk (dev.length + 1) 0 (by omega) (by omega)
  refine ⟨hits, hsome, ?_, ?_⟩
  · intro hnil; rw [hnil] at hmemhit; simp at hmemhit
  · intro h hmemh
    have hsound := scanLoop_sound sigs dev (fullRead dev (scanBufSize dev.length))
      (scanOverlap (scanBufSize dev.length)) (dev.length + 1) 0 hits hsome h hmemh
    exact huniq h.offset h.sig hsound.1 hsound.2

/-- Witness for `carver_scan_hit_offsets`: a 70-byte device with a single JPEG
header at offset 0 and no other signature occurrence. -/
theorem carver_scan_hit_offsets_witness :
    ∃ hits, carverScan [jpegSig] devW3 = some hits ∧ hits ≠ [] ∧
      ∀ h ∈ hits, h.offset = 0 := by
  apply carver_scan_hit_offsets [jpegSig] devW3 jpegSig 0
  · decide
  · decide
  · decide
  · decide
  · intro h; simp [jpegSig] at h
  · decide
  · intro p s hs hp
    have hs' : s = jpegSig := by simpa using hs
    subst hs'
    by_cases hlt : p < 68
    · have hdec : ∀ q < 68, jpegSig.header.isPrefixOf (devW3.drop q) = true →
          q = 0 := by decide
      exact hdec p hlt hp
    · exfalso
      have hlen := isPrefixOf_length_le _ _ hp
      have hd : devW3.length = 70 := by decide
      simp [List.length_drop, hd] at hlen
      have : jpegSig.header.length = 3 := by decide
      omega

theorem devC3_length : devC3.length = 2048 := by
  simp only [devC3, List.length_append, List.length_replicate, List.length_cons,
    List.length_nil]

theorem devC3_drop_1500 :
    devC3.drop 1500 = [0xFF, 0xD8, 0xFF] ++ List.replicate 545 1 := by
  simp only [devC3, List.drop_append_eq_append_drop, List.length_append,
    List.length_replicate, List.drop_replicate]
  simp [-List.reduceReplicate]

theorem take3_cases {l : List Nat} {a b c : Nat} (h : l.take 3 = [a, b, c]) :
    ∃ t, l = a :: b :: c :: t := by
  rcases l with _ | ⟨x, _ | ⟨y, _ | ⟨z, t⟩⟩⟩
  · simp at h
  · simp at h
  · simp at h
  · simp only [List.take_succ_cons, List.take_zero, List.cons.injEq] at h
    obtain ⟨rfl, rfl, rfl, -⟩ := h
    exact ⟨t, rfl⟩

/-- The JPEG header occurs on `devC3` only at offset 1500. -/
theorem devC3_unique :
    ∀ p, jpegSig.header.isPrefixOf (devC3.drop p) = true → p = 1500 := by
  intro p hp
  rw [isPrefixOf_iff_take] at hp
  have hp3 : (devC3.drop p).take 3 = [0xFF, 0xD8, 0xFF] := hp
  obtain ⟨t, ht⟩ := take3_cases hp3
  by_cases h1 : p < 1500
  · exfalso
    have hdrop : devC3.drop p =
        List.replicate (1500 - p) 1 ++
          ([0xFF, 0xD8, 0xFF] ++ List.replicate 545 1) := by
      simp only [devC3, List.drop_append_eq_append_drop, List.length_append,
        List.length_replicate, List.drop_replicate]
      rw [Nat.sub_eq_zero_of_le h1.le]
      have h2 : p - (1500 + [0xFF, 0xD8, 0xFF].length) = 0 := by simp; omega
      rw [h2]
      simp [-List.reduceReplicate]
    have hm : 1500 - p = (1500 - p - 1) + 1 := by omega
    rw [hm, List.replicate_succ] at hdrop
    rw [ht] at hdrop
    simp [-List.reduceReplicate] at hdrop
  · by_cases h2 : p = 1500
    · exact h2
    · exfalso
      have h3 : 1500 < p := by omega
      have hdrop : devC3.drop p =
          List.drop (p - 1500) [0xFF, 0xD8, 0xFF] ++
            List.replicate (545 - (p - 1500 - 3)) 1 := by
        simp only [devC3, List.drop_append_eq_append_drop, List.length_append,
          List.length_replicate, List.drop_replicate]
        have h0 : 1500 - p = 0 := by omega
        have h4 : p - (1500 + [0xFF, 0xD8, 0xFF].length) = p - 1500 - 3 := by
          simp; omega
        rw [h0, h4]
        simp [-List.reduceReplicate]
      rw [ht] at hdrop
      by_cases hq1 : p - 1500 = 1
      · rw [hq1] at hdrop; simp [-List.reduceReplicate] at hdrop
      · by_cases hq2 : p - 1500 = 2
        · rw [hq2] at hdrop
          have hr : 545 - (2 - 3) = 544 + 1 := by omega
          rw [hr, List.replicate_succ] at hdrop
          simp [-List.reduceReplicate] at hdrop
        · have hq3 : 3 ≤ p - 1500 := by omega
          have hdq : List.drop (p - 1500) [0xFF, 0xD8, 0xFF] = ([] : List Nat) := by
            apply List.drop_eq_nil_of_le; simpa using hq3
          rw [hdq, List.nil_append] at hdrop
          cases hr : 545 - (p - 1500 - 3) with
          | zero => rw [hr] at hdrop; simp at hdrop
          | succ m =>
            rw [hr, List.replicate_succ] at hdrop
            simp [-List.reduceReplicate] at hdrop

/-- C3 counterexample: on `devC3` the JPEG header occurs exactly once, at
offset 1500 (inside the 1 KiB overlap window between the two buffer reads of
the 2048-byte scan), `1500 + 3 + 64 ≤ 2048`, yet the scan records the hit
`(JPEG, 1500)` (at least) twice, refuting the claimed "exactly one hit". -/
theorem carver_scan_hit_offsets_counterexample :
    (jpegSig.header.isPrefixOf (devC3.drop 1500) = true) ∧
    (∀ p, jpegSig.header.isPrefixOf (devC3.drop p) = true → p = 1500) ∧
    (1500 + jpegSig.header.length + 64 ≤ devC3.length) ∧
    (∃ hits, carverScan [jpegSig] devC3 = some hits ∧
      2 ≤ hits.count ⟨jpegSig, 1500, 52428800⟩) := by
  have hocc : jpegSig.header.isPrefixOf (devC3.drop 1500) = true := by
    rw [isPrefixOf_iff_take, devC3_drop_1500]
    exact List.take_left [0xFF, 0xD8, 0xFF] (List.replicate 545 1)
  refine ⟨hocc, devC3_unique, by rw [devC3_length]; decide, ?_⟩
  have hlen548 : (devC3.drop 1500).length = 548 := by
    rw [devC3_drop_1500]; simp [-List.reduceReplicate]
  -- the match test passes on the suffix at 1500 and on its 548-byte prefix
  have hmatch1 : sigMatchesAt jpegSig (devC3.drop 1500) = true := by
    unfold sigMatchesAt
    rw [if_neg (by rw [hlen548]; decide), if_pos hocc,
      if_neg (by simp [jpegSig])]
  have hmatch2 : sigMatchesAt jpegSig ((devC3.drop 1500).take 548) = true := by
    unfold sigMatchesAt
    have htk : (devC3.drop 1500).take 548 = devC3.drop 1500 := by
      apply List.take_of_length_le; rw [hlen548]
    rw [htk]
    rw [if_neg (by rw [hlen548]; decide), if_pos hocc,
      if_neg (by simp [jpegSig])]
  -- unfold the three iterations of the scan
  have hB : scanBufSize devC3.length = 2048 := by rw [devC3_length]; rfl
  have hr0 : fullRead devC3 2048 0 = 2048 := by
    simp [fullRead, devC3_length]
  have hr1024 : fullRead devC3 2048 1024 = 1024 := by
    simp [fullRead, devC3_length]
  have hstep3 : scanLoop [jpegSig] devC3 (fullRead devC3 2048) 1024 2047 2048 =
      some [] := by
    rw [scanLoop_succ, if_pos (by rw [devC3_length])]
  have hstep2 : scanLoop [jpegSig] devC3 (fullRead devC3 2048) 1024 2048 1024 =
      some (scanPositions [jpegSig] ((devC3.drop 1024).take 1024) 1024 960) := by
    rw [scanLoop_succ, if_neg (by rw [devC3_length]; omega),
      if_neg (by rw [hr1024]; omega)]
    rw [hr1024]
    have hadv : scanAdvance 1024 1024 = 1024 := scanAdvance_of_le (by omega)
    rw [hadv]
    rw [hstep3]
    simp [searchEndOf]
  have hstep1 : scanLoop [jpegSig] devC3 (fullRead devC3 2048) 1024 2049 0 =
      some (scanPositions [jpegSig] ((devC3.drop 0).take 2048) 0 1984 ++
        scanPositions [jpegSig] ((devC3.drop 1024).take 1024) 1024 960) := by
    rw [scanLoop_succ, if_neg (by rw [devC3_length]; omega),
      if_neg (by rw [hr0]; omega)]
    rw [hr0]
    have hadv : scanAdvance 2048 1024 = 1024 := scanAdvance_of_gt (by omega)
    rw [hadv]
    rw [hstep2]
    simp [searchEndOf]
  have hscan : carverScan [jpegSig] devC3 =
      some (scanPositions [jpegSig] ((devC3.drop 0).take 2048) 0 1984 ++
        scanPositions [jpegSig] ((devC3.drop 1024).take 1024) 1024 960) := by
    unfold carverScan
    rw [devC3_length]
    have hB2 : scanBufSize 2048 = 2048 := rfl
    have hO : scanOverlap 2048 = 1024 := rfl
    rw [hB2, hO]
    exact hstep1
  refine ⟨_, hscan, ?_⟩
  -- the hit is recorded by both buffer windows
  have hbuf1 : (devC3.drop 0).take 2048 = devC3 := by
    rw [List.drop_zero]
    apply List.take_of_length_le
    rw [devC3_length]
  have hmem1 : (⟨jpegSig, 1500, 52428800⟩ : CarvedFile) ∈
      scanPositions [jpegSig] ((devC3.drop 0).take 2048) 0 1984 := by
    rw [mem_scanPositions]
    refine ⟨1500, by omega, jpegSig, by simp, ?_, rfl⟩
    rw [hbuf1]
    exact hmatch1
  have hmem2 : (⟨jpegSig, 1500, 52428800⟩ : CarvedFile) ∈
      scanPositions [jpegSig] ((devC3.drop 1024).take 1024) 1024 960 := by
    rw [mem_scanPositions]
    refine ⟨476, by omega, jpegSig, by simp, ?_, rfl⟩
    have hdt : ((devC3.drop 1024).take 1024).drop 476 =
        (devC3.drop 1500).take 548 := by
      rw [List.drop_take, List.drop_drop]
    rw [hdt]
    exact hmatch2
  rw [List.count_append]
  have h1 := List.count_pos_iff.mpr hmem1
  have h2 := List.count_pos_iff.mpr hmem2
  omega

/-- C5 counterexample: a 10-byte device whose read returns `n = 10 < 64`
bytes.  The claim's searched set `[0, max(0, n-64)) = ∅` would produce no
hits, but the scan searches `[0, 10)` and reports the BMP header at offset 0. -/
theorem carver_search_window_counterexample :
    carverScan [bmpSig] [0x42, 0x4D, 0, 0, 0, 0, 0, 0, 0, 0] =
        some [⟨bmpSig, 0, 52428800⟩] ∧
      searchEndOf 10 = 10 ∧ max ((10 : Int) - 64) 0 = 0 ∧ (10 : Nat) ≠ 0 := by
  refine ⟨by decide, by decide, by decide, by decide⟩

/-! ### C2: boot-sector validation -/

/-- C2 (amended): FAT32 boot-sector parsing performs NO field validation;
`NewParser` returns a parser whenever the 512-byte boot-sector read succeeds,
even when `bytes_per_sector` or `sectors_per_cluster` is zero.  No
`InvalidBootSector` error path exists in the code. -/
theorem fat32_newparser_no_validation (dev : List Nat) (h : 512 ≤ dev.length) :
    (fat32NewParser dev).isSome = true := by
  unfold fat32NewParser fat32ReadBootSector
  rw [if_neg (by omega)]
  rfl

/-- Witness for `fat32_newparser_no_validation`. -/
theorem fat32_newparser_no_validation_witness :
    512 ≤ (List.replicate 600 (0 : Nat)).length ∧
      (fat32NewParser (List.replicate 600 (0 : Nat))).isSome = true :=
  ⟨by rw [List.length_replicate]; omega, fat32_newparser_no_validation _
    (by rw [List.length_replicate]; omega)⟩

/-- C2 counterexample: an all-zero 512-byte image has `bytes_per_sector = 0`
and `sectors_per_cluster = 0`, yet `NewParser` succeeds (returns a parser, not
an `InvalidBootSector` error), refuting the claimed failure. -/
theorem fat32_newparser_counterexample :
    (u16 (List.replicate 512 (0 : Nat)) 11 = 0) ∧
    ((List.replicate 512 (0 : Nat)).getD 13 0 = 0) ∧
    (fat32NewParser (List.replicate 512 (0 : Nat))).isSome = true := by
  refine ⟨?_, ?_, ?_⟩
  · simp only [u16, List.getD_eq_getElem?_getD, List.getElem?_replicate]
    norm_num
  · simp only [List.getD_eq_getElem?_getD, List.getElem?_replicate]
    norm_num
  · unfold fat32NewParser fat32ReadBootSector
    rw [if_neg (by rw [List.length_replicate]; omega)]
    rfl

/-! ### C7: contiguous extraction -/

theorem clusterToOffset_eq (p : Fat32Parser) (c : Nat) (h2 : 2 ≤ c)
    (hlt : c < 4294967296) :
    clusterToOffset p c = p.dataStart + (c - 2) * p.clusterSz := by
  unfold clusterToOffset
  have h : c + 4294967296 - 2 = (c - 2) + 4294967296 := by omega
  rw [h, Nat.add_mod_right, Nat.mod_eq_of_lt (by omega)]

theorem fat32RecoverLoop_done (dev : List Nat) (p : Fat32Parser) (size : Nat) :
    ∀ fuel cluster written, size ≤ written →
      fat32RecoverLoop dev p size fuel cluster written = ([], 0) := by
  intro fuel cluster written h
  cases fuel with
  | zero => rfl
  | succ fuel => unfold fat32RecoverLoop; rw [if_pos h]

theorem fat32RecoverLoop_spec (dev : List Nat) (p : Fat32Parser) (size : Nat)
    (hcs : 0 < p.clusterSz) :
    ∀ fuel cluster written, written ≤ size →
      size - written ≤ fuel * p.clusterSz →
      2 ≤ cluster →
      cluster + (size - written + p.clusterSz - 1) / p.clusterSz ≤ 4294967296 →
      clusterToOffset p cluster +
          ((size - written + p.clusterSz - 1) / p.clusterSz) * p.clusterSz ≤
        dev.length →
      (fat32RecoverLoop dev p size fuel cluster written).1 =
          (dev.drop (clusterToOffset p cluster)).take (size - written) ∧
        (fat32RecoverLoop dev p size fuel cluster written).2 ≤
          (size - written + p.clusterSz - 1) / p.clusterSz := by
  intro fuel
  induction fuel with
  | zero =>
    intro cluster written hw hfuel h2 hcl hrd
    have hws : written = size := by omega
    exact ⟨by simp [fat32RecoverLoop, hws], by simp [fat32RecoverLoop]⟩
  | succ fuel ih =>
    intro cluster written hw hfuel h2 hcl hrd
    by_cases hdone : size ≤ written
    · have hws : written = size := by omega
      rw [fat32RecoverLoop_done dev p size _ _ _ hdone]
      exact ⟨by simp [hws], by simp⟩
    · have hx1 : 1 ≤ size - written := by omega
      have hceil1 : 1 ≤ (size - written + p.clusterSz - 1) / p.clusterSz := by
        rw [Nat.le_div_iff_mul_le hcs]; omega
      have hcsle : p.clusterSz ≤
          ((size - written + p.clusterSz - 1) / p.clusterSz) * p.clusterSz := by
        calc p.clusterSz = 1 * p.clusterSz := by ring
          _ ≤ _ := Nat.mul_le_mul_right p.clusterSz hceil1
      have hclt : cluster < 4294967296 := by omega
      have hco := clusterToOffset_eq p cluster h2 hclt
      have hread : readCluster dev p cluster =
          some ((dev.drop (clusterToOffset p cluster)).take p.clusterSz) := by
        unfold readCluster
        rw [if_pos (by omega)]
      have hdata : ((dev.drop (clusterToOffset p cluster)).take p.clusterSz).length =
          p.clusterSz := by
        simp only [List.length_take, List.length_drop]
        omega
      unfold fat32RecoverLoop
      rw [if_neg hdone, hread]
      simp only [hdata]
      by_cases hlast : size - written ≤ p.clusterSz
      · -- final (possibly partial) cluster
        have hmin : min p.clusterSz (size - written) = size - written := by omega
        rw [hmin]
        have hfin : written + (size - written) = size := by omega
        rw [hfin, fat32RecoverLoop_done dev p size fuel _ _ (by omega)]
        constructor
        · simp only [List.append_nil, List.take_take]
          congr 1
          omega
        · simpa using hceil1
      · -- full cluster, recurse
        have hmin : min p.clusterSz (size - written) = p.clusterSz := by omega
        rw [hmin]
        have hsub : size - (written + p.clusterSz) =
            size - written - p.clusterSz := by omega
        have hceil : (size - written + p.clusterSz - 1) / p.clusterSz =
            (size - written - p.clusterSz + p.clusterSz - 1) / p.clusterSz + 1 := by
          have e1 : size - written + p.clusterSz - 1 =
              (size - written - p.clusterSz + p.clusterSz - 1) + p.clusterSz := by
            omega
          rw [e1, Nat.add_div_right _ hcs]
        have hceil2 : 2 ≤ (size - written + p.clusterSz - 1) / p.clusterSz := by
          rw [Nat.le_div_iff_mul_le hcs]; omega
        have hclmod : (cluster + 1) % 4294967296 = cluster + 1 := by
          apply Nat.mod_eq_of_lt; omega
        have hco1 : clusterToOffset p (cluster + 1) =
            clusterToOffset p cluster + p.clusterSz := by
          rw [clusterToOffset_eq p (cluster + 1) (by omega) (by omega), hco]
          have e2 : cluster + 1 - 2 = (cluster - 2) + 1 := by omega
          rw [e2]
          ring
        have e3 : (fuel + 1) * p.clusterSz = fuel * p.clusterSz + p.clusterSz := by
          ring
        have e4 : ((size - written - p.clusterSz + p.clusterSz - 1) / p.clusterSz + 1) *
            p.clusterSz =
            ((size - written - p.clusterSz + p.clusterSz - 1) / p.clusterSz) *
              p.clusterSz + p.clusterSz := by ring
        have ihh := ih (cluster + 1) (written + p.clusterSz) (by omega)
          (by rw [hsub]; omega) (by omega)
          (by rw [hsub]; rw [hceil] at hcl; omega)
          (by rw [hsub, hco1]; rw [hceil, e4] at hrd; omega)
        rw [hclmod]
        obtain ⟨ih1, ih2⟩ := ihh
        constructor
        · rw [ih1, hsub, hco1]
          have hdd : dev.drop (clusterToOffset p cluster + p.clusterSz) =
              (dev.drop (clusterToOffset p cluster)).drop p.clusterSz := by
            rw [List.drop_drop]
          rw [hdd]
          have hdtake : ((dev.drop (clusterToOffset p cluster)).take
              p.clusterSz).take p.clusterSz =
              (dev.drop (clusterToOffset p cluster)).take p.clusterSz :=
            List.take_of_length_le (by rw [hdata])
          rw [hdtake]
          have hsplit : size - written =
              p.clusterSz + (size - written - p.clusterSz) := by omega
          rw [hsplit, List.take_add]
          have e5 : p.clusterSz + (size - written - p.clusterSz) - p.clusterSz =
              size - written - p.clusterSz := by omega
          rw [e5]
        · rw [hsub] at ih2
          rw [hceil]
          omega

/-- The ceiling cluster count bounds the byte count. -/
theorem ceil_mul_ge (size cs : Nat) (hcs : 0 < cs) :
    size ≤ ((size + cs - 1) / cs) * cs := by
  have hd := Nat.div_add_mod (size + cs - 1) cs
  have hm := Nat.mod_lt (size + cs - 1) hcs
  rw [Nat.mul_comm] at hd
  omega

/-- C7 (amended): FAT32 contiguous extraction.  For a deleted non-directory
entry with first cluster `c ≥ 2` and size `size`, when the whole contiguous
range of `ceil(size/clusterSz)` clusters starting at
`clusterToOffset p c` lies inside the device, and neither the `uint32`
cluster-count computation (`size + clusterSz - 1 < 2^32`) nor the cluster
counter (`c + ceil ≤ 2^32`) overflows, the recovered bytes are exactly the
first `size` bytes at `dataStart + (c-2)*clusterSz` and at most
`ceil(size/clusterSz)` cluster reads are performed. -/
theorem fat32_recover_contiguous (dev : List Nat) (p : Fat32Parser)
    (c size : Nat)
    (hcs : 0 < p.clusterSz)
    (hc2 : 2 ≤ c)
    (hov : size + p.clusterSz - 1 < 4294967296)
    (hcw : c + (size + p.clusterSz - 1) / p.clusterSz ≤ 4294967296)
    (hrd : clusterToOffset p c +
        ((size + p.clusterSz - 1) / p.clusterSz) * p.clusterSz ≤ dev.length) :
    (fat32RecoverFile dev p c size).1 =
        (dev.drop (clusterToOffset p c)).take size ∧
      (fat32RecoverFile dev p c size).2 ≤
        (size + p.clusterSz - 1) / p.clusterSz := by
  have hmod : (size + p.clusterSz + 4294967295) % 4294967296 =
      size + p.clusterSz - 1 := by
    have e : size + p.clusterSz + 4294967295 =
        (size + p.clusterSz - 1) + 4294967296 := by omega
    rw [e, Nat.add_mod_right, Nat.mod_eq_of_lt hov]
  by_cases hz : size = 0
  · subst hz
    have : fat32RecoverFile dev p c 0 = ([], 0) := by
      unfold fat32RecoverFile
      cases hfc : fat32ClustersNeeded 0 p.clusterSz with
      | zero => rfl
      | succ m => unfold fat32RecoverLoop; rw [if_pos (by omega)]
    rw [this]
    exact ⟨by simp, by simp⟩
  · have h1 : 1 ≤ (size + p.clusterSz - 1) / p.clusterSz := by
      rw [Nat.le_div_iff_mul_le hcs]; omega
    have hcn : fat32ClustersNeeded size p.clusterSz =
        (size + p.clusterSz - 1) / p.clusterSz := by
      unfold fat32ClustersNeeded
      rw [hmod, if_neg (by omega)]
    unfold fat32RecoverFile
    rw [hcn]
    have hspec := fat32RecoverLoop_spec dev p size hcs
      ((size + p.clusterSz - 1) / p.clusterSz) c 0
      (by omega) (by simpa using ceil_mul_ge size p.clusterSz hcs) hc2
      (by simpa using hcw) (by simpa using hrd)
    simpa using hspec

/-- Witness for `fat32_recover_contiguous` at a concrete device. -/
theorem fat32_recover_contiguous_witness :
    (0 < pW7.clusterSz ∧ 2 ≤ 3 ∧ 6 + pW7.clusterSz - 1 < 4294967296 ∧
      3 + (6 + pW7.clusterSz - 1) / pW7.clusterSz ≤ 4294967296 ∧
      clusterToOffset pW7 3 +
          ((6 + pW7.clusterSz - 1) / pW7.clusterSz) * pW7.clusterSz ≤
        devW7.length) ∧
    ((fat32RecoverFile devW7 pW7 3 6).1 =
        (devW7.drop (clusterToOffset pW7 3)).take 6 ∧
      (fat32RecoverFile devW7 pW7 3 6).2 ≤
        (6 + pW7.clusterSz - 1) / pW7.clusterSz) :=
  ⟨by decide, fat32_recover_contiguous devW7 pW7 3 6 (by decide) (by decide)
    (by decide) (by decide) (by decide)⟩

theorem devC7_length : devC7.length = 4294967296 := by
  rw [devC7, List.length_replicate]

/-- C7 counterexample: for `size = 2^32 - 1` and cluster size 2, the `uint32`
computation `size + clusterSz - 1` wraps to 0, so `clustersNeeded` becomes 1
and the loop writes just one 2-byte cluster instead of `ceil(size/2)` clusters
— even though every cluster of the claimed range is readable (the device holds
`2^32` bytes).  The output has 2 bytes, not `size` bytes, refuting the claim as
stated. -/
theorem fat32_recover_contiguous_counterexample :
    (0 < pC7.clusterSz) ∧ (2 ≤ 2) ∧
    (clusterToOffset pC7 2 +
        ((4294967295 + pC7.clusterSz - 1) / pC7.clusterSz) * pC7.clusterSz ≤
      devC7.length) ∧
    ((fat32RecoverFile devC7 pC7 2 4294967295).1 = [7, 7] ∧
      ¬ (fat32RecoverFile devC7 pC7 2 4294967295).1 =
          (devC7.drop (clusterToOffset pC7 2)).take 4294967295) := by
  have hco : clusterToOffset pC7 2 = 0 := by decide
  have hread : readCluster devC7 pC7 2 = some [7, 7] := by
    unfold readCluster
    rw [hco, if_pos (by rw [devC7_length]; decide)]
    rw [List.drop_zero, devC7, List.take_replicate]
    decide
  have hout : (fat32RecoverFile devC7 pC7 2 4294967295).1 = [7, 7] := by
    unfold fat32RecoverFile
    have hcn : fat32ClustersNeeded 4294967295 pC7.clusterSz = 1 := by decide
    rw [hcn]
    unfold fat32RecoverLoop
    rw [if_neg (by decide), hread]
    rfl
  refine ⟨by decide, by decide, ?_, hout, ?_⟩
  · rw [hco, devC7_length]; decide
  · intro heq
    have hl := congrArg List.length heq
    rw [hout] at hl
    rw [hco, List.drop_zero] at hl
    rw [List.length_take, devC7_length] at hl
    simp at hl

/-! ### LFN lemmas -/

theorem unitsBytes_length (us : List Nat) :
    (unitsBytes us).length = 2 * us.length := by
  induction us with
  | nil => rfl
  | cons u us ih =>
    simp only [unitsBytes, List.map_cons, List.join_cons] at ih ⊢
    simp [ih]
    omega

theorem getD_append_offset (pre X : List Nat) (i : Nat) :
    (pre ++ X).getD (pre.length + i) 0 = X.getD i 0 := by
  rw [List.getD_eq_getElem?_getD, List.getD_eq_getElem?_getD,
    List.getElem?_append_right (by omega)]
  congr 2
  omega

theorem u16_at_units (pre : List Nat) (u : Nat) (rest : List Nat) :
    u16 (pre ++ ([u % 256, u / 256] ++ rest)) pre.length = u := by
  unfold u16
  have h0 : (pre ++ ([u % 256, u / 256] ++ rest)).getD (pre.length) 0 = u % 256 := by
    have := getD_append_offset pre ([u % 256, u / 256] ++ rest) 0
    simpa using this
  have h1 : (pre ++ ([u % 256, u / 256] ++ rest)).getD (pre.length + 1) 0 =
      u / 256 := by
    have := getD_append_offset pre ([u % 256, u / 256] ++ rest) 1
    simpa using this
  rw [h0, h1]
  omega

/-- Decoding one region over `a ++ b` where `a` holds usable units and `b`
is all terminators yields exactly `a`. -/
theorem lfnRegion_split :
    ∀ (a : List Nat) (b pre tail : List Nat),
      (∀ u ∈ a, LFNUnit u) → (∀ u ∈ b, u = 0 ∨ u = 65535) →
      lfnRegion (pre ++ (unitsBytes (a ++ b) ++ tail)) pre.length
        (a ++ b).length = a := by
  intro a
  induction a with
  | nil =>
    intro b pre tail _ hb
    cases b with
    | nil => rfl
    | cons u b' =>
      simp only [List.nil_append, List.length_cons]
      unfold lfnRegion
      rw [if_pos]
      have hu : u16 (pre ++ (unitsBytes (u :: b') ++ tail)) pre.length = u := by
        have : unitsBytes (u :: b') = [u % 256, u / 256] ++ unitsBytes b' := by
          simp [unitsBytes]
        rw [this, List.append_assoc]
        exact u16_at_units pre u (unitsBytes b' ++ tail)
      rw [hu]
      exact hb u (by simp)
  | cons u a' ih =>
    intro b pre tail ha hb
    simp only [List.cons_append, List.length_cons]
    unfold lfnRegion
    have hu : u16 (pre ++ (unitsBytes (u :: (a' ++ b)) ++ tail)) pre.length = u := by
      have : unitsBytes (u :: (a' ++ b)) =
          [u % 256, u / 256] ++ unitsBytes (a' ++ b) := by
        simp [unitsBytes]
      rw [this, List.append_assoc]
      exact u16_at_units pre u (unitsBytes (a' ++ b) ++ tail)
    have hun : LFNUnit u := ha u (by simp)
    have hterm : ¬ (u16 (pre ++ (unitsBytes (u :: (a' ++ b)) ++ tail)) pre.length = 0 ∨
        u16 (pre ++ (unitsBytes (u :: (a' ++ b)) ++ tail)) pre.length = 65535) := by
      rw [hu]
      rintro (h | h)
      · exact hun.2.1 h
      · exact hun.2.2 h
    rw [if_neg hterm]
    rw [hu]
    congr 1
    have hre : pre ++ (unitsBytes (u :: (a' ++ b)) ++ tail) =
        (pre ++ [u % 256, u / 256]) ++ (unitsBytes (a' ++ b) ++ tail) := by
      have : unitsBytes (u :: (a' ++ b)) =
          [u % 256, u / 256] ++ unitsBytes (a' ++ b) := by
        simp [unitsBytes]
      rw [this]
      simp [List.append_assoc]
    rw [hre]
    have hplen : pre.length + 2 = (pre ++ [u % 256, u / 256]).length := by
      simp
    rw [hplen]
    exact ih b (pre ++ [u % 256, u / 256]) tail
      (fun v hv => ha v (by simp [hv])) hb

theorem padOf_term (frag : List Nat) : ∀ u ∈ padOf frag, u = 0 ∨ u = 65535 := by
  intro u hu
  unfold padOf at hu
  split_ifs at hu
  · simp at hu
  · simp only [List.mem_cons] at hu
    rcases hu with h | h
    · left; exact h
    · right; exact List.eq_of_mem_replicate h

theorem padTo13_length {frag : List Nat} (h : frag.length ≤ 13) :
    (padTo13 frag).length = 13 := by
  unfold padTo13 padOf
  split_ifs with h13
  · simp [h13]
  · simp only [List.length_append, List.length_cons, List.length_replicate]
    omega

/-- Decoding an encoded LFN slot recovers its fragment. -/
theorem parseLFNEntry_mk (ord : Nat) (frag : List Nat) (h13 : frag.length ≤ 13)
    (hu : ∀ u ∈ frag, LFNUnit u) :
    parseLFNEntry (mkLFNSlot ord frag) = frag := by
  have hpulen : (padTo13 frag).length = 13 := padTo13_length h13
  have hs1 : (padTo13 frag).take 5 =
      frag.take 5 ++ (padOf frag).take (5 - frag.length) := by
    unfold padTo13
    rw [List.take_append_eq_append_take]
  have hs2 : ((padTo13 frag).drop 5).take 6 =
      (frag.drop 5).take 6 ++
        ((padOf frag).drop (5 - frag.length)).take (6 - (frag.drop 5).length) := by
    unfold padTo13
    rw [List.drop_append_eq_append_drop, List.take_append_eq_append_take]
  have hs3 : (padTo13 frag).drop 11 =
      frag.drop 11 ++ (padOf frag).drop (11 - frag.length) := by
    unfold padTo13
    rw [List.drop_append_eq_append_drop]
  have ha1 : ∀ u ∈ frag.take 5, LFNUnit u :=
    fun u hm => hu u (List.take_subset 5 frag hm)
  have ha2 : ∀ u ∈ (frag.drop 5).take 6, LFNUnit u :=
    fun u hm => hu u (List.drop_subset 5 frag (List.take_subset 6 _ hm))
  have ha3 : ∀ u ∈ frag.drop 11, LFNUnit u :=
    fun u hm => hu u (List.drop_subset 11 frag hm)
  have hb1 : ∀ u ∈ (padOf frag).take (5 - frag.length), u = 0 ∨ u = 65535 :=
    fun u hm => padOf_term frag u (List.take_subset _ _ hm)
  have hb2 : ∀ u ∈ ((padOf frag).drop (5 - frag.length)).take
      (6 - (frag.drop 5).length), u = 0 ∨ u = 65535 :=
    fun u hm => padOf_term frag u (List.drop_subset _ _ (List.take_subset _ _ hm))
  have hb3 : ∀ u ∈ (padOf frag).drop (11 - frag.length), u = 0 ∨ u = 65535 :=
    fun u hm => padOf_term frag u (List.drop_subset _ _ hm)
  have hl1 : (frag.take 5 ++ (padOf frag).take (5 - frag.length)).length = 5 := by
    rw [← hs1]
    simp only [List.length_take]
    omega
  have hl2 : ((frag.drop 5).take 6 ++
      ((padOf frag).drop (5 - frag.length)).take
        (6 - (frag.drop 5).length)).length = 6 := by
    rw [← hs2]
    simp only [List.length_take, List.length_drop]
    omega
  have hl3 : (frag.drop 11 ++ (padOf frag).drop (11 - frag.length)).length = 2 := by
    rw [← hs3]
    simp only [List.length_drop]
    omega
  have hr1 : lfnRegion (mkLFNSlot ord frag) 1 5 = frag.take 5 := by
    have heq : mkLFNSlot ord frag =
        [ord] ++ (unitsBytes (frag.take 5 ++ (padOf frag).take (5 - frag.length)) ++
          ([15, 0, 0] ++ (unitsBytes (((padTo13 frag).drop 5).take 6) ++
            ([0, 0] ++ unitsBytes ((padTo13 frag).drop 11))))) := by
      rw [mkLFNSlot, hs1]
    have hsp := lfnRegion_split (frag.take 5)
      ((padOf frag).take (5 - frag.length)) [ord]
      ([15, 0, 0] ++ (unitsBytes (((padTo13 frag).drop 5).take 6) ++
        ([0, 0] ++ unitsBytes ((padTo13 frag).drop 11)))) ha1 hb1
    rw [hl1] at hsp
    simp only [List.length_cons, List.length_nil] at hsp
    rw [heq]
    exact hsp
  have hr2 : lfnRegion (mkLFNSlot ord frag) 14 6 = (frag.drop 5).take 6 := by
    have heq : mkLFNSlot ord frag =
        ([ord] ++ unitsBytes ((padTo13 frag).take 5) ++ [15, 0, 0]) ++
          (unitsBytes ((frag.drop 5).take 6 ++
            ((padOf frag).drop (5 - frag.length)).take (6 - (frag.drop 5).length)) ++
            ([0, 0] ++ unitsBytes ((padTo13 frag).drop 11))) := by
      rw [mkLFNSlot, ← hs2]
      simp [List.append_assoc]
    have hsp := lfnRegion_split ((frag.drop 5).take 6)
      (((padOf frag).drop (5 - frag.length)).take (6 - (frag.drop 5).length))
      ([ord] ++ unitsBytes ((padTo13 frag).take 5) ++ [15, 0, 0])
      ([0, 0] ++ unitsBytes ((padTo13 frag).drop 11)) ha2 hb2
    rw [hl2] at hsp
    have hplen : ([ord] ++ unitsBytes ((padTo13 frag).take 5) ++
        [15, 0, 0]).length = 14 := by
      simp only [List.length_append, List.length_cons, List.length_nil,
        unitsBytes_length, List.length_take]
      omega
    rw [hplen] at hsp
    rw [heq]
    exact hsp
  have hr3 : lfnRegion (mkLFNSlot ord frag) 28 2 = frag.drop 11 := by
    have heq : mkLFNSlot ord frag =
        ([ord] ++ unitsBytes ((padTo13 frag).take 5) ++ [15, 0, 0] ++
            unitsBytes (((padTo13 frag).drop 5).take 6) ++ [0, 0]) ++
          (unitsBytes (frag.drop 11 ++ (padOf frag).drop (11 - frag.length)) ++
            []) := by
      rw [mkLFNSlot, ← hs3]
      simp [List.append_assoc]
    have hsp := lfnRegion_split (frag.drop 11)
      ((padOf frag).drop (11 - frag.length))
      ([ord] ++ unitsBytes ((padTo13 frag).take 5) ++ [15, 0, 0] ++
        unitsBytes (((padTo13 frag).drop 5).take 6) ++ [0, 0])
      [] ha3 hb3
    rw [hl3] at hsp
    have hplen : ([ord] ++ unitsBytes ((padTo13 frag).take 5) ++ [15, 0, 0] ++
        unitsBytes (((padTo13 frag).drop 5).take 6) ++ [0, 0]).length = 28 := by
      simp only [List.length_append, List.length_cons, List.length_nil,
        unitsBytes_length, List.length_take, List.length_drop]
      omega
    rw [hplen] at hsp
    rw [heq]
    exact hsp
  unfold parseLFNEntry
  rw [hr1, hr2, hr3]
  have h11 : frag.take 5 ++ (frag.drop 5).take 6 = frag.take 11 := by
    rw [← List.take_add]
  rw [h11]
  have h13' : frag.drop 11 = (frag.take 11 ++ frag.drop 11).drop 11 := by
    rw [List.take_append_drop]
  rw [List.take_append_drop]

theorem scanSlots_cons (e : List Nat) (rest : List (List Nat))
    (lfnParts : List (List Nat)) :
    scanSlots (e :: rest) lfnParts =
      if e.getD 0 0 = 0 then []
      else if e.getD 11 0 = 15 then
        scanSlots rest (parseLFNEntry e ::
          (if Nat.testBit (e.getD 0 0) 6 then [] else lfnParts))
      else if Nat.testBit (e.getD 11 0) 3 then scanSlots rest lfnParts
      else if (baseRecord e lfnParts).name = [46] ∨
          (baseRecord e lfnParts).name = [46, 46] then scanSlots rest []
      else baseRecord e lfnParts :: scanSlots rest [] := rfl

theorem testBit6_false {k : Nat} (h : k < 64) : Nat.testBit k 6 = false := by
  rw [Nat.testBit_to_div_mod]
  norm_num
  omega

theorem testBit6_true {k : Nat} (h1 : 64 ≤ k) (h2 : k < 128) :
    Nat.testBit k 6 = true := by
  rw [Nat.testBit_to_div_mod]
  norm_num
  omega

theorem mkLFNSlot_getD0 (ord : Nat) (frag : List Nat) :
    (mkLFNSlot ord frag).getD 0 0 = ord := rfl

theorem mkLFNSlot_getD11 (ord : Nat) (frag : List Nat) (h13 : frag.length ≤ 13) :
    (mkLFNSlot ord frag).getD 11 0 = 15 := by
  have heq : mkLFNSlot ord frag =
      ([ord] ++ unitsBytes ((padTo13 frag).take 5)) ++
        ([15, 0, 0] ++ (unitsBytes (((padTo13 frag).drop 5).take 6) ++
          ([0, 0] ++ unitsBytes ((padTo13 frag).drop 11)))) := by
    rw [mkLFNSlot]
    simp [List.append_assoc]
  have hpl : ([ord] ++ unitsBytes ((padTo13 frag).take 5)).length = 11 := by
    simp only [List.length_append, List.length_cons, List.length_nil,
      unitsBytes_length, List.length_take, padTo13_length h13]
    omega
  have hoff := getD_append_offset ([ord] ++ unitsBytes ((padTo13 frag).take 5))
    ([15, 0, 0] ++ (unitsBytes (((padTo13 frag).drop 5).take 6) ++
      ([0, 0] ++ unitsBytes ((padTo13 frag).drop 11)))) 0
  rw [hpl] at hoff
  rw [heq]
  simpa using hoff

/-- Scanning the encoded chain (in its on-disk order) from any prior chain
state leaves the scanner with exactly the logical fragment list. -/
theorem scanSlots_encodeChain :
    ∀ (fs : List (List Nat)) (k : Nat) (tail : List (List Nat))
      (parts0 : List (List Nat)),
      fs ≠ [] → (∀ f ∈ fs, FragWF f) → 1 ≤ k → k + fs.length ≤ 64 →
      scanSlots (encodeChainAux fs k ++ tail) parts0 = scanSlots tail fs := by
  intro fs
  induction fs with
  | nil => intro k tail parts0 hne; exact absurd rfl hne
  | cons f rest ih =>
    intro k tail parts0 _ hwf hk1 hk64
    have hwff : FragWF f := hwf f (by simp)
    cases rest with
    | nil =>
      have henc : encodeChainAux [f] k = [mkLFNSlot (k + 64) f] := by
        unfold encodeChainAux
        simp [encodeChainAux]
      rw [henc]
      rw [List.cons_append, List.nil_append, scanSlots_cons]
      rw [mkLFNSlot_getD0, mkLFNSlot_getD11 _ _ hwff.1]
      rw [if_neg (by omega)]
      rw [if_pos rfl]
      rw [testBit6_true (by omega) (by simp at hk64; omega)]
      rw [parseLFNEntry_mk _ _ hwff.1 hwff.2]
      simp
    | cons g rest' =>
      have henc : encodeChainAux (f :: g :: rest') k =
          encodeChainAux (g :: rest') (k + 1) ++ [mkLFNSlot k f] := by
        unfold encodeChainAux
        simp [encodeChainAux]
      rw [henc, List.append_assoc, List.singleton_append]
      rw [ih (k + 1) (mkLFNSlot k f :: tail) parts0 (by simp)
        (fun x hx => hwf x (by simp [List.mem_cons] at hx ⊢; tauto))
        (by omega) (by simp at hk64 ⊢; omega)]
      rw [scanSlots_cons]
      rw [mkLFNSlot_getD0, mkLFNSlot_getD11 _ _ hwff.1]
      rw [if_neg (by omega)]
      rw [if_pos rfl]
      rw [testBit6_false (by simp at hk64; omega)]
      rw [parseLFNEntry_mk _ _ hwff.1 hwff.2]
      simp

theorem chunk13_join : ∀ (fuel : Nat) (s : List Nat), s.length ≤ fuel →
    (chunk13 fuel s).join = s := by
  intro fuel
  induction fuel with
  | zero =>
    intro s h
    have hnil : s = [] := List.length_eq_zero.mp (by omega)
    subst hnil
    rfl
  | succ fuel ih =>
    intro s h
    cases s with
    | nil => rfl
    | cons x xs =>
      have hc : chunk13 (fuel + 1) (x :: xs) =
          List.take 13 (x :: xs) :: chunk13 fuel (List.drop 13 (x :: xs)) := rfl
      rw [hc]
      show List.take 13 (x :: xs) ++
        (chunk13 fuel (List.drop 13 (x :: xs))).join = x :: xs
      rw [ih _ (by simp only [List.length_drop, List.length_cons] at h ⊢; omega)]
      exact List.take_append_drop 13 (x :: xs)

theorem chunk13_mem : ∀ (fuel : Nat) (s f : List Nat), f ∈ chunk13 fuel s →
    f.length ≤ 13 ∧ ∀ u ∈ f, u ∈ s := by
  intro fuel
  induction fuel with
  | zero => intro s f h; simp [chunk13] at h
  | succ fuel ih =>
    intro s f h
    cases s with
    | nil => simp [chunk13] at h
    | cons x xs =>
      have hc : chunk13 (fuel + 1) (x :: xs) =
          List.take 13 (x :: xs) :: chunk13 fuel (List.drop 13 (x :: xs)) := rfl
      rw [hc] at h
      simp only [List.mem_cons] at h
      rcases h with h | h
      · subst h
        constructor
        · simp
        · intro u hu; exact List.take_subset 13 (x :: xs) hu
      · obtain ⟨h1, h2⟩ := ih _ f h
        exact ⟨h1, fun u hu => List.drop_subset 13 (x :: xs) (h2 u hu)⟩

theorem chunk13_len_bound : ∀ (fuel : Nat) (s : List Nat),
    13 * (chunk13 fuel s).length ≤ s.length + 12 := by
  intro fuel
  induction fuel with
  | zero => intro s; simp [chunk13]
  | succ fuel ih =>
    intro s
    cases s with
    | nil => simp [chunk13]
    | cons x xs =>
      have hc : chunk13 (fuel + 1) (x :: xs) =
          List.take 13 (x :: xs) :: chunk13 fuel (List.drop 13 (x :: xs)) := rfl
      rw [hc]
      have := ih (List.drop 13 (x :: xs))
      simp only [List.length_cons, List.length_drop] at this ⊢
      omega

theorem lfnChunks_ne {s : List Nat} (h : s ≠ []) : lfnChunks s ≠ [] := by
  unfold lfnChunks
  cases s with
  | nil => exact absurd rfl h
  | cons x xs => simp [chunk13]

/-- C8 (amended): long-file-name round-trip.  For a name `s` of usable UTF-16
code units (nonempty, no `0x0000` AND no `0xFFFF`, at most 63 slots, not `.`
or `..`), scanning the encoded chain followed by a base entry (from any prior
chain state) emits the base entry's record with display name exactly `s`,
then continues with an empty chain. -/
theorem fat32_lfn_roundtrip (s : List Nat) (base : List Nat)
    (rest : List (List Nat)) (parts0 : List (List Nat))
    (hs : LFNString s)
    (hdot1 : s ≠ [46]) (hdot2 : s ≠ [46, 46])
    (hb0 : base.getD 0 0 ≠ 0) (hb11 : base.getD 11 0 ≠ 15)
    (hbvol : Nat.testBit (base.getD 11 0) 3 = false) :
    scanSlots (encodeLFNChain s ++ base :: rest) parts0 =
        baseRecord base (lfnChunks s) :: scanSlots rest [] ∧
      (baseRecord base (lfnChunks s)).name = s := by
  obtain ⟨hne, hlen, hunits⟩ := hs
  have hjoin : (lfnChunks s).join = s := chunk13_join s.length s le_rfl
  have hwf : ∀ f ∈ lfnChunks s, FragWF f := by
    intro f hf
    obtain ⟨h1, h2⟩ := chunk13_mem s.length s f hf
    exact ⟨h1, fun u hu => hunits u (h2 u hu)⟩
  have hcount : 1 + (lfnChunks s).length ≤ 64 := by
    have := chunk13_len_bound s.length s
    unfold lfnChunks
    omega
  have hname : (baseRecord base (lfnChunks s)).name = s := by
    have hpr : (baseRecord base (lfnChunks s)).name =
        if (lfnChunks s).join = [] then
          parseShortName (base.take 11) (base.getD 0 0 == 229)
        else (lfnChunks s).join := rfl
    rw [hpr, hjoin, if_neg hne]
  refine ⟨?_, hname⟩
  rw [encodeLFNChain]
  rw [scanSlots_encodeChain (lfnChunks s) 1 (base :: rest) parts0
    (lfnChunks_ne hne) hwf le_rfl hcount]
  rw [scanSlots_cons]
  rw [if_neg hb0, if_neg hb11, hbvol]
  rw [if_neg (by simp : ¬ (false = true))]
  rw [if_neg (by rw [hname]; push_neg; exact ⟨hdot1, hdot2⟩)]

/-- Witness for `fat32_lfn_roundtrip` with the two-unit name "Hi". -/
theorem fat32_lfn_roundtrip_witness :
    (LFNString [72, 105] ∧ ([72, 105] : List Nat) ≠ [46] ∧
      ([72, 105] : List Nat) ≠ [46, 46] ∧ baseW8.getD 0 0 ≠ 0 ∧
      baseW8.getD 11 0 ≠ 15 ∧ Nat.testBit (baseW8.getD 11 0) 3 = false) ∧
    (scanSlots (encodeLFNChain [72, 105] ++ baseW8 :: []) [] =
        baseRecord baseW8 (lfnChunks [72, 105]) :: scanSlots [] [] ∧
      (baseRecord baseW8 (lfnChunks [72, 105])).name = [72, 105]) :=
  ⟨by decide, fat32_lfn_roundtrip [72, 105] baseW8 [] [] (by decide) (by decide)
    (by decide) (by decide) (by decide) (by decide)⟩

/-- C8 counterexample: the name `['A', 0xFFFF, 'B']` contains no `0x0000`
(the claim's only stated restriction), yet its well-formed encoded chain
decodes to `['A']` — `0xFFFF` is also treated as a terminator by the decoder
— so the reported display name differs from `s`. -/
theorem fat32_lfn_roundtrip_counterexample :
    (([65, 65535, 66] : List Nat) ≠ [] ∧
      ∀ u ∈ ([65, 65535, 66] : List Nat), u < 65536 ∧ u ≠ 0) ∧
    (scanSlots (encodeLFNChain [65, 65535, 66] ++ baseW8 :: []) []).map
        DirEntryRec.name = [[65]] ∧
    ([65] : List Nat) ≠ [65, 65535, 66] := by
  refine ⟨by decide, by decide, by decide⟩

/-! ### C9: parsing bounds -/

theorem attrLoop_bounds (record : List Nat) :
    ∀ fuel offset, ∀ s ∈ attrLoop record fuel offset,
      s.1 + s.2 ≤ record.length := by
  intro fuel
  induction fuel with
  | zero => intro offset s hs; simp [attrLoop] at hs
  | succ fuel ih =>
    intro offset s hs
    unfold attrLoop at hs
    split_ifs at hs with h1 h2 h3
    · simp at hs
    · simp at hs
    · simp at hs
    · simp only [List.mem_cons] at hs
      rcases hs with hs | hs
      · subst hs; simp; omega
      · exact ih _ s hs

theorem runSpanLoop_bounds :
    ∀ fuel (suffix : List Nat) (i : Nat), ∀ e ∈ runSpanLoop fuel suffix i,
      e.1 + e.2 ≤ i + suffix.length := by
  intro fuel
  induction fuel with
  | zero => intro suffix i e he; simp [runSpanLoop] at he
  | succ fuel ih =>
    intro suffix i e he
    cases suffix with
    | nil => simp [runSpanLoop] at he
    | cons h rest =>
      unfold runSpanLoop at he
      split_ifs at he with h1 h2
      · simp at he
      · simp at he
      · simp only [List.mem_cons] at he
        rcases he with he | he
        · subst he; simp; omega
        · have := ih _ _ e he
          simp only [List.length_drop, List.length_cons] at this ⊢
          omega

/-- C9: NTFS parsing bounds.  Every attribute the record iteration dispatches
lies within the record (`offset + length ≤ record size`), and every run the
data-run decoder consumes lies within the run-list bytes
(`start + 1 + lenBytes + offBytes ≤ data size`). -/
theorem ntfs_parse_bounds (record data : List Nat) :
    (∀ s ∈ attrSpans record, s.1 + s.2 ≤ record.length) ∧
    (∀ e ∈ runSpans data, e.1 + e.2 ≤ data.length) := by
  constructor
  · intro s hs
    exact attrLoop_bounds record (record.length + 1) (u16 record 20) s hs
  · intro e he
    have := runSpanLoop_bounds (data.length + 1) data 0 e he
    simpa using this

/-- Witness for `ntfs_parse_bounds`. -/
theorem ntfs_parse_bounds_witness :
    ((24, 32) ∈ attrSpans recW9 ∧ 24 + 32 ≤ recW9.length) ∧
    ((0, 3) ∈ runSpans dataW9 ∧ 0 + 3 ≤ dataW9.length) :=
  ⟨⟨by decide, (ntfs_parse_bounds recW9 dataW9).1 (24, 32) (by decide)⟩,
    ⟨by decide, (ntfs_parse_bounds recW9 dataW9).2 (0, 3) (by decide)⟩⟩

theorem leEncode_length (w : Nat) : ∀ v, (leEncode w v).length = w := by
  induction w with
  | zero => intro v; rfl
  | succ w ih => intro v; simp [leEncode, ih]

theorem leByteSum_leEncode (w : Nat) :
    ∀ v j, j + w ≤ 8 →
      leByteSum (leEncode w v) j = 2 ^ (8 * j) * (v % 2 ^ (8 * w)) := by
  induction w with
  | zero => intro v j _; simp [leEncode, leByteSum, Nat.mod_one]
  | succ w ih =>
    intro v j hj
    have hj8 : j < 8 := by omega
    have hrec := ih (v / 256) (j + 1) (by omega)
    simp only [leEncode, leByteSum, if_pos hj8, hrec]
    have hsplit : v % 2 ^ (8 * (w + 1)) = v % 256 + 256 * (v / 256 % 2 ^ (8 * w)) := by
      have h1 : (2 : Nat) ^ (8 * (w + 1)) = 256 * 2 ^ (8 * w) := by
        rw [Nat.mul_add, Nat.mul_one, Nat.pow_add]; ring
      rw [h1, Nat.mod_mul]
    rw [hsplit]
    have h2 : (2 : Nat) ^ (8 * (j + 1)) = 2 ^ (8 * j) * 256 := by
      rw [Nat.mul_add, Nat.mul_one, Nat.pow_add]
    rw [h2]; ring

theorem leEncode_getLastD (w : Nat) :
    ∀ v d, 1 ≤ w → (leEncode w v).getLastD d = v / 2 ^ (8 * (w - 1)) % 256 := by
  induction w with
  | zero => intro v d h; omega
  | succ w ih =>
    intro v d h
    rcases Nat.eq_zero_or_pos w with h0 | hw
    · subst h0; simp [leEncode]
    · have hrec := ih (v / 256) (v % 256) hw
      simp only [leEncode, List.getLastD_cons, hrec]
      rw [Nat.div_div_eq_div_mul]
      have hE : (256 : Nat) * 2 ^ (8 * (w - 1)) = 2 ^ (8 * w) := by
        have h8 : 8 + 8 * (w - 1) = 8 * w := by omega
        calc (256 : Nat) * 2 ^ (8 * (w - 1)) = 2 ^ 8 * 2 ^ (8 * (w - 1)) := by norm_num
          _ = 2 ^ (8 + 8 * (w - 1)) := (Nat.pow_add 2 8 (8 * (w - 1))).symm
          _ = 2 ^ (8 * w) := by rw [h8]
      rw [hE]
      simp

theorem decodeRunOffset_leEncode (ob : Nat) (D : Int)
    (h1 : 1 ≤ ob) (h8 : ob ≤ 8)
    (hlo : -(2 ^ (8 * ob - 1) : Int) ≤ D) (hhi : D < 2 ^ (8 * ob - 1)) :
    decodeRunOffset (leEncode ob (D.emod (2 ^ (8 * ob))).toNat) = D := by
  have hm2 : (2 : Int) ^ (8 * ob - 1) * 2 = 2 ^ (8 * ob) := by
    rw [← pow_succ]
    congr 1
    omega
  have hmN : (2 : Nat) ^ (8 * ob - 1) * 2 = 2 ^ (8 * ob) := by
    rw [← pow_succ]
    congr 1
    omega
  have hcast : ((2 ^ (8 * ob) : Nat) : Int) = 2 ^ (8 * ob) := by push_cast; rfl
  have hcast1 : ((2 ^ (8 * ob - 1) : Nat) : Int) = 2 ^ (8 * ob - 1) := by
    push_cast; rfl
  have hsub8 : 8 * ob - 8 = 8 * (ob - 1) := by omega
  have hE7 : (128 : Nat) * 2 ^ (8 * (ob - 1)) = 2 ^ (8 * ob - 1) := by
    have h7 : 7 + 8 * (ob - 1) = 8 * ob - 1 := by omega
    calc (128 : Nat) * 2 ^ (8 * (ob - 1)) = 2 ^ 7 * 2 ^ (8 * (ob - 1)) := by norm_num
      _ = 2 ^ (7 + 8 * (ob - 1)) := (Nat.pow_add 2 7 (8 * (ob - 1))).symm
      _ = 2 ^ (8 * ob - 1) := by rw [h7]
  have hE8 : (256 : Nat) * 2 ^ (8 * (ob - 1)) = 2 ^ (8 * ob) := by
    have h7 : 8 + 8 * (ob - 1) = 8 * ob := by omega
    calc (256 : Nat) * 2 ^ (8 * (ob - 1)) = 2 ^ 8 * 2 ^ (8 * (ob - 1)) := by norm_num
      _ = 2 ^ (8 + 8 * (ob - 1)) := (Nat.pow_add 2 8 (8 * (ob - 1))).symm
      _ = 2 ^ (8 * ob) := by rw [h7]
  have hpowpos : 0 < (2 : Nat) ^ (8 * (ob - 1)) := Nat.pos_pow_of_pos _ (by norm_num)
  have hmle : (2 : Nat) ^ (8 * ob - 1) ≤ 2 ^ 63 :=
    Nat.pow_le_pow_right (by norm_num) (by omega)
  have hmle64 : (2 : Nat) ^ (8 * ob) ≤ 2 ^ 64 :=
    Nat.pow_le_pow_right (by norm_num) (by omega)
  rcases le_or_lt 0 D with hD | hD
  · -- nonnegative delta: plain little-endian value, top bit clear
    have hDlt : D < 2 ^ (8 * ob) := by linarith
    have he : D.emod (2 ^ (8 * ob)) = D := Int.emod_eq_of_lt hD hDlt
    have hNI : ((D.emod (2 ^ (8 * ob))).toNat : Int) = D := by
      rw [he]; exact Int.toNat_of_nonneg hD
    set N := (D.emod (2 ^ (8 * ob))).toNat with hN
    have hNlt : N < 2 ^ (8 * ob - 1) := by
      have : (N : Int) < ((2 ^ (8 * ob - 1) : Nat) : Int) := by
        rw [hNI, hcast1]; exact hhi
      exact_mod_cast this
    have hNm : N < 2 ^ (8 * ob) := by omega
    have hlast : (leEncode ob N).getLastD 0 = N / 2 ^ (8 * (ob - 1)) % 256 :=
      leEncode_getLastD ob N 0 h1
    have hdivlt : N / 2 ^ (8 * (ob - 1)) < 128 := by
      rw [Nat.div_lt_iff_lt_mul hpowpos]
      rw [Nat.mul_comm] at hE7
      omega
    have hbit : Nat.testBit ((leEncode ob N).getLastD 0) 7 = false := by
      rw [hlast, Nat.testBit_to_div_mod]
      have hx : N / 2 ^ (8 * (ob - 1)) % 256 / 2 ^ 7 = 0 := by
        have := Nat.mod_le (N / 2 ^ (8 * (ob - 1))) 256
        norm_num
        omega
      rw [hx]
      norm_num
    have hsum : leByteSum (leEncode ob N) 0 = N := by
      rw [leByteSum_leEncode ob N 0 (by omega)]
      simp [Nat.mod_eq_of_lt hNm]
    rw [decodeRunOffset, hbit]
    simp only [if_neg Bool.false_ne_true, hsum]
    rw [toInt64, if_pos (by show N < 2 ^ 63; omega), hNI]
  · -- negative delta: offset stored as D + 2^(8*ob), top bit set,
    -- sign-extension then recovers D
    have h0 : (0 : Int) ≤ D + 2 ^ (8 * ob) := by linarith
    have hlt : D + 2 ^ (8 * ob) < 2 ^ (8 * ob) := by linarith
    have he : D.emod (2 ^ (8 * ob)) = D + 2 ^ (8 * ob) := by
      calc D.emod (2 ^ (8 * ob)) = (D + 2 ^ (8 * ob) * 1).emod (2 ^ (8 * ob)) :=
            (Int.add_mul_emod_self_left D (2 ^ (8 * ob)) 1).symm
        _ = (D + 2 ^ (8 * ob)).emod (2 ^ (8 * ob)) := by rw [Int.mul_one]
        _ = D + 2 ^ (8 * ob) := Int.emod_eq_of_lt h0 hlt
    have hNI : ((D.emod (2 ^ (8 * ob))).toNat : Int) = D + 2 ^ (8 * ob) := by
      rw [he]; exact Int.toNat_of_nonneg h0
    set N := (D.emod (2 ^ (8 * ob))).toNat with hN
    have hNge : 2 ^ (8 * ob - 1) ≤ N := by
      have : ((2 ^ (8 * ob - 1) : Nat) : Int) ≤ (N : Int) := by
        rw [hNI, hcast1]; linarith
      exact_mod_cast this
    have hNm : N < 2 ^ (8 * ob) := by
      have : (N : Int) < ((2 ^ (8 * ob) : Nat) : Int) := by
        rw [hNI, hcast]; linarith
      exact_mod_cast this
    have hlast : (leEncode ob N).getLastD 0 = N / 2 ^ (8 * (ob - 1)) % 256 :=
      leEncode_getLastD ob N 0 h1
    have hdivge : 128 ≤ N / 2 ^ (8 * (ob - 1)) := by
      rw [Nat.le_div_iff_mul_le hpowpos]
      omega
    have hdivlt : N / 2 ^ (8 * (ob - 1)) < 256 := by
      rw [Nat.div_lt_iff_lt_mul hpowpos]
      rw [Nat.mul_comm] at hE8
      omega
    have hbit : Nat.testBit ((leEncode ob N).getLastD 0) 7 = true := by
      rw [hlast, Nat.testBit_to_div_mod]
      have hx : N / 2 ^ (8 * (ob - 1)) % 256 / 2 ^ 7 = 1 := by
        rw [Nat.mod_eq_of_lt hdivlt]
        norm_num
        omega
      rw [hx]
      decide
    have hsum : leByteSum (leEncode ob N) 0 = N := by
      rw [leByteSum_leEncode ob N 0 (by omega)]
      simp [Nat.mod_eq_of_lt hNm]
    have hlen : (leEncode ob N).length = ob := leEncode_length ob N
    have hsgn : signExtBits ob = 18446744073709551616 - 2 ^ (8 * ob) := by
      unfold signExtBits
      split_ifs with hob
      · rfl
      · have : ob = 8 := by omega
        subst this; norm_num
    rw [decodeRunOffset, hbit, if_pos rfl, hsum, hlen, hsgn]
    have hPI : ((N + (18446744073709551616 - 2 ^ (8 * ob)) : Nat) : Int) =
        D + 18446744073709551616 := by
      have hmle64' : (2 : Nat) ^ (8 * ob) ≤ 18446744073709551616 := by
        have h64 : (2 : Nat) ^ 64 = 18446744073709551616 := by norm_num
        omega
      have h2 : ((18446744073709551616 - 2 ^ (8 * ob) : Nat) : Int) =
          (18446744073709551616 : Int) - 2 ^ (8 * ob) := by
        rw [Nat.cast_sub hmle64', hcast]
        norm_num
      push_cast [h2]
      rw [show ((N : Int) = D + 2 ^ (8 * ob)) from hNI]
      ring
    rw [toInt64]
    rw [if_neg ?hge]
    case hge =>
      intro hcon
      have : ((N + (18446744073709551616 - 2 ^ (8 * ob)) : Nat) : Int) <
          ((9223372036854775808 : Nat) : Int) := by exact_mod_cast hcon
      rw [hPI] at this
      have hD63 : -(2 : Int) ^ 63 ≤ D := by
        have : ((2 ^ (8 * ob - 1) : Nat) : Int) ≤ ((2 ^ 63 : Nat) : Int) := by
          exact_mod_cast hmle
        rw [hcast1] at this
        have h63 : ((2 ^ 63 : Nat) : Int) = (2 : Int) ^ 63 := by push_cast
        rw [h63] at this
        linarith
      norm_num at this
      norm_num at hD63
      omega
    rw [hPI]
    ring

theorem encodeRuns_cons (r : EncRun) (rest : List EncRun) :
    encodeRuns (r :: rest) = r.toBytes ++ encodeRuns rest := by
  show (r.toBytes ++ (rest.map EncRun.toBytes).join) ++ [0] =
    r.toBytes ++ ((rest.map EncRun.toBytes).join ++ [0])
  rw [List.append_assoc]

theorem deltaSum_cons (r : EncRun) (l : List EncRun) :
    deltaSum (r :: l) = r.delta + deltaSum l := by
  simp [deltaSum]

theorem runLoop_succ (fuel : Nat) (h : Nat) (rest : List Nat) (lcn : Int) :
    runLoop (fuel + 1) (h :: rest) lcn =
      if h = 0 then []
      else if rest.length < h % 16 + h / 16 then []
      else
        ⟨wrap64 (lcn + (if 0 < h / 16 then
            decodeRunOffset ((rest.drop (h % 16)).take (h / 16)) else 0)),
          leByteSum (rest.take (h % 16)) 0⟩ ::
          runLoop fuel (rest.drop (h % 16 + h / 16))
            (wrap64 (lcn + (if 0 < h / 16 then
              decodeRunOffset ((rest.drop (h % 16)).take (h / 16)) else 0))) := rfl

theorem runLoop_encodeRuns :
    ∀ (rs : List EncRun) (lcn : Int) (fuel : Nat),
      (∀ r ∈ rs, r.WF) →
      (∀ n, n ≤ rs.length → InI64 (lcn + deltaSum (List.take n rs))) →
      (encodeRuns rs).length ≤ fuel →
      runLoop fuel (encodeRuns rs) lcn = runsSpec rs lcn := by
  intro rs
  induction rs with
  | nil =>
    intro lcn fuel hwf hsum hfuel
    have h1 : encodeRuns [] = [0] := rfl
    rw [h1] at hfuel ⊢
    cases fuel with
    | zero => simp at hfuel
    | succ f =>
      rw [runLoop_succ f 0 [] lcn]
      simp [runsSpec]
  | cons r rest ih =>
    intro lcn fuel hwf hsum hfuel
    obtain ⟨hlb, hob, hpos, hrl, hd0, hdb⟩ := hwf r (List.mem_cons_self r rest)
    set N := (r.delta.emod (2 ^ (8 * r.offBytes))).toNat with hNdef
    have hcons : encodeRuns (r :: rest) =
        (r.offBytes * 16 + r.lenBytes) ::
          ((leEncode r.lenBytes r.runLen ++ leEncode r.offBytes N) ++
            encodeRuns rest) := by
      rw [encodeRuns_cons]; rfl
    rw [hcons] at hfuel ⊢
    cases fuel with
    | zero => simp at hfuel
    | succ f =>
      rw [runLoop_succ]
      have hne : ¬(r.offBytes * 16 + r.lenBytes = 0) := by omega
      have hmod : (r.offBytes * 16 + r.lenBytes) % 16 = r.lenBytes := by omega
      have hdiv : (r.offBytes * 16 + r.lenBytes) / 16 = r.offBytes := by omega
      rw [if_neg hne, hmod, hdiv]
      have hlentl :
          ((leEncode r.lenBytes r.runLen ++ leEncode r.offBytes N) ++
            encodeRuns rest).length =
          r.lenBytes + r.offBytes + (encodeRuns rest).length := by
        simp [leEncode_length]
        omega
      rw [if_neg (by omega)]
      have htake :
          (((leEncode r.lenBytes r.runLen ++ leEncode r.offBytes N) ++
            encodeRuns rest).take r.lenBytes) = leEncode r.lenBytes r.runLen := by
        rw [List.append_assoc]
        have h := List.take_left (leEncode r.lenBytes r.runLen)
          (leEncode r.offBytes N ++ encodeRuns rest)
        rwa [leEncode_length] at h
      have hdrop :
          (((leEncode r.lenBytes r.runLen ++ leEncode r.offBytes N) ++
            encodeRuns rest).drop r.lenBytes) =
          leEncode r.offBytes N ++ encodeRuns rest := by
        rw [List.append_assoc]
        have h := List.drop_left (leEncode r.lenBytes r.runLen)
          (leEncode r.offBytes N ++ encodeRuns rest)
        rwa [leEncode_length] at h
      have htake2 :
          ((((leEncode r.lenBytes r.runLen ++ leEncode r.offBytes N) ++
            encodeRuns rest).drop r.lenBytes).take r.offBytes) =
          leEncode r.offBytes N := by
        rw [hdrop]
        have h := List.take_left (leEncode r.offBytes N) (encodeRuns rest)
        rwa [leEncode_length] at h
      have hdrop2 :
          (((leEncode r.lenBytes r.runLen ++ leEncode r.offBytes N) ++
            encodeRuns rest).drop (r.lenBytes + r.offBytes)) =
          encodeRuns rest := by
        rw [← List.drop_drop, hdrop]
        have h := List.drop_left (leEncode r.offBytes N) (encodeRuns rest)
        rwa [leEncode_length] at h
      have hsumlen : leByteSum
          ((((leEncode r.lenBytes r.runLen ++ leEncode r.offBytes N) ++
            encodeRuns rest).take r.lenBytes)) 0 = r.runLen := by
        rw [htake, leByteSum_leEncode r.lenBytes r.runLen 0 (by omega)]
        simp [Nat.mod_eq_of_lt hrl]
      have hoff : (if 0 < r.offBytes then
          decodeRunOffset
            ((((leEncode r.lenBytes r.runLen ++ leEncode r.offBytes N) ++
              encodeRuns rest).drop r.lenBytes).take r.offBytes)
          else 0) = r.delta := by
        split_ifs with hobpos
        · rw [htake2]
          exact decodeRunOffset_leEncode r.offBytes r.delta hobpos hob
            (hdb hobpos).1 (hdb hobpos).2
        · exact (hd0 (by omega)).symm
      rw [hoff, hsumlen, hdrop2]
      have hwrap : wrap64 (lcn + r.delta) = lcn + r.delta := by
        apply wrap64_eq_of_inI64
        have h := hsum 1 (by simp)
        simpa [deltaSum_cons, deltaSum] using h
      rw [hwrap]
      have hrec : runLoop f (encodeRuns rest) (lcn + r.delta) =
          runsSpec rest (lcn + r.delta) := by
        apply ih (lcn + r.delta) f
        · intro r' hr'
          exact hwf r' (List.mem_cons_of_mem r hr')
        · intro n hn
          have h := hsum (n + 1) (by simp; omega)
          rw [List.take_succ_cons, deltaSum_cons] at h
          rwa [← add_assoc] at h
        · simp only [List.length_cons] at hfuel
          omega
      rw [hrec]
      rfl

/-- `u16` of the synthetic attribute at offset 32 is 34, and the run-list
bytes start at byte 34. -/
theorem mkRunAttr_parse (b : List Nat) :
    u16 (mkRunAttr b) 32 = 34 ∧ (mkRunAttr b).drop 34 = b ∧
    (mkRunAttr b).length = 34 + b.length := by
  refine ⟨?_, ?_, ?_⟩
  · have e0 : (List.replicate 32 0 ++ ([34, 0] ++ b)).getD 32 0 = 34 := by
      rw [List.getD_eq_getElem?_getD, List.getElem?_append_right (by simp)]
      simp
    unfold mkRunAttr u16
    rw [List.append_assoc, e0]
    norm_num
    rw [List.getElem?_append_right (by simp)]
    simp
  · show ((List.replicate 32 0 ++ [34, 0]) ++ b).drop 34 = b
    have h := List.drop_left (List.replicate 32 0 ++ [34, 0]) b
    have hl : (List.replicate 32 0 ++ ([34, 0] : List Nat)).length = 34 := by
      simp
    rwa [hl] at h
  · show ((List.replicate 32 0 ++ [34, 0]) ++ b).length = 34 + b.length
    simp
    omega

/-- C4: data-run decoding.  For any well-formed encoded run list whose prefix
LCN sums all fit in `int64`, `parseDataRuns` returns exactly the runs'
lengths, with each run's LCN equal to the running sum of the signed deltas
(sign-extension governed by the top bit of the last offset byte). -/
theorem ntfs_data_run_decoding (rs : List EncRun)
    (hwf : ∀ r ∈ rs, r.WF)
    (hsums : ∀ n, n ≤ rs.length → InI64 (deltaSum (List.take n rs))) :
    parseDataRuns (mkRunAttr (encodeRuns rs)) = runsSpec rs 0 := by
  obtain ⟨h16, hdrop, hlen⟩ := mkRunAttr_parse (encodeRuns rs)
  unfold parseDataRuns
  rw [h16, hdrop, hlen]
  rw [if_neg ?hguard]
  case hguard =>
    have : 1 ≤ (encodeRuns rs).length := by
      unfold encodeRuns
      simp
    omega
  apply runLoop_encodeRuns rs 0 ((encodeRuns rs).length + 1) hwf
  · intro n hn
    have h := hsums n hn
    simpa using h
  · omega

/-- Witness for `ntfs_data_run_decoding`: the two-run list decodes to LCNs
100 and 50 with lengths 16 and 3. -/
theorem ntfs_data_run_decoding_witness :
    (∀ r ∈ rsW4, r.WF) ∧
    (∀ n, n ≤ rsW4.length → InI64 (deltaSum (List.take n rsW4))) ∧
    parseDataRuns (mkRunAttr (encodeRuns rsW4)) =
      [⟨100, 16⟩, ⟨50, 3⟩] := by
  refine ⟨by decide, by decide, ?_⟩
  rw [ntfs_data_run_decoding rsW4 (by decide) (by decide)]
  decide

/-- C1: the decoder assigns the RUNNING LCN (here 100), not 0, to a sparse
run, so `RecoverFile`'s `Offset == 0` zero-fill branch never fires: for the
runs `[(100,1), (sparse,2), (3,1)]` with size 4 and cluster size 1, the code
re-reads clusters 100–101 for the sparse extent and outputs
`[65, 65, 66, 67]` where the NTFS sparse semantics (and the code's own
"Sparse run, write zeros" branch) require `[65, 0, 0, 67]`. -/
theorem ntfs_sparse_run_bug :
    parseDataRuns attrC1 = [⟨100, 1⟩, ⟨100, 2⟩, ⟨103, 1⟩] ∧
    ntfsRecoverFile devC1 1 (parseDataRuns attrC1) 4 = some [65, 65, 66, 67] ∧
    ([65, 65, 66, 67] : List Nat) ≠ [65, 0, 0, 67] := by
  refine ⟨by decide, by decide, by decide⟩

end Recovery

